import Mathlib

/-! # Attestation value codec (`schema.go`)

A shallow embedding of `decodeAttestationValues`, `encodeAttestationValues`
and `scanAttestationValues` of package `eas`.

Go strings are modelled as lists of Unicode code points (`Str`), i.e. the
embedding covers strings that are valid UTF-8.  Everything the three functions
obtain from other packages (`abi.NewType`, `abi.Arguments.Pack`,
`abi.Arguments.Unpack`, `taint.Inject`) and the helper `getTypeString` are
fields of a structure `Externals`; each function returns, next to its Go
result, the ordered list of calls it made to these collaborators.
-/

namespace EAS

/-- A Go string, as its sequence of code points. -/
abbrev Str := List Char

/-- A Go byte slice. -/
abbrev Bytes := List Nat

/-! ## The `strings` functions used by the schema loop -/

/-- The predicate `unicode.IsSpace`: the Latin-1 spaces tab, LF, VT, FF, CR, space,
NEL and NBSP, and beyond Latin-1 the code points of property `White_Space`. -/
def isSpace (c : Char) : Bool :=
  let n := c.toNat
  (0x09 ≤ n && n ≤ 0x0D) || n = 0x20 || n = 0x85 || n = 0xA0 || n = 0x1680 ||
  (0x2000 ≤ n && n ≤ 0x200A) || n = 0x2028 || n = 0x2029 || n = 0x202F ||
  n = 0x205F || n = 0x3000

/-- The call `strings.Split(s, sep)` for a one-character separator: the substrings
between the separators, one more than there are separators. -/
def Split (s : Str) (sep : Char) : List Str :=
  match s with
  | [] => [[]]
  | c :: cs =>
    if c = sep then [] :: Split cs sep
    else
      match Split cs sep with
      | [] => [[c]]
      | f :: fs => (c :: f) :: fs

/-- The call `strings.TrimSpace(s)`: `s` without its leading and trailing white space. -/
def TrimSpace (s : Str) : Str :=
  ((s.dropWhile isSpace).reverse.dropWhile isSpace).reverse

/-- The scan of `strings.Fields`, with the field being read in `cur`. -/
def fieldsFrom (cur : Str) : Str → List Str
  | [] => if cur = [] then [] else [cur]
  | c :: cs =>
    if isSpace c then
      if cur = [] then fieldsFrom [] cs else cur :: fieldsFrom [] cs
    else fieldsFrom (cur ++ [c]) cs

/-- The call `strings.Fields(s)`: the maximal runs of non-space characters of `s`,
in order; empty when `s` holds only white space. -/
def Fields (s : Str) : List Str := fieldsFrom [] s

/-- The call `strings.Join(elems, " ")` with a one-character separator string. -/
def Join (elems : List Str) (sep : Str) : Str :=
  match elems with
  | [] => []
  | [e] => e
  | e :: es => e ++ sep ++ Join es sep

/-! ## Values, errors and collaborators -/

deriving instance DecidableEq for Except

/-- The struct `SchemaItem`; its field `Type` is `Type_` here.  `Value` has Go type `any`; `none` is the nil interface,
the zero value the field has until the decode loop assigns it. -/
structure SchemaItem (V : Type) where
  Name : Str
  Type_ : Str
  Value : Option V
deriving DecidableEq, Repr

/-- A Go `error` value: one produced by a collaborator, or one made in this package
by `errors.New(msg)`. -/
inductive GoError (E : Type) where
  | ext (e : E)
  | new (msg : Str)
deriving DecidableEq, Repr

/-- How a call ends: it returns its value with a nil error, it returns a non-nil
error with the zero value, or it panics. -/
inductive Result (E A : Type) where
  | ok (a : A)
  | err (e : GoError E)
  | panic
deriving DecidableEq, Repr

/-- An argument of `scanAttestationValues` (Go type `any`): a non-nil pointer to the
memory cell `a`, a value that is not a pointer, or nil. -/
inductive Arg (V : Type) where
  | ptr (a : Nat)
  | val (v : V)
  | nil
deriving DecidableEq, Repr

/-- The memory the pointer arguments point into: the value held by each cell. -/
abbrev Heap (V : Type) := Nat → V

/-- A call made to a collaborator, with the arguments it received. -/
inductive Call (T V : Type) where
  | getTypeString (v : V)
  | newType (t : Str)
  | pack (args : List T) (values : List V)
  | unpack (args : List T) (data : Bytes)
  | inject (v : V) (arg : Arg V)
deriving DecidableEq, Repr

/-- The functions `schema.go` calls and does not define in the embedded lines:
`getTypeString(v, "")`, `abi.NewType(t, "", nil)`, `abi.Arguments.Pack`,
`abi.Arguments.Unpack` (an `abi.Arguments` whose elements carry only a `Type` is
its list of types) and `taint.Inject(v, arg)`, which may write to memory and
returns an error or nil.  `T` is `abi.Type`, `V` the dynamic values, `E` the
collaborators' error values. -/
structure Externals (T V E : Type) where
  getTypeString : V → Except E Str
  NewType : Str → Except E T
  Pack : List T → List V → Except E Bytes
  Unpack : List T → Bytes → Except E (List V)
  Inject : V → Arg V → Heap V → Heap V × Option E

/-- What a run of `decodeAttestationValues` or `encodeAttestationValues` yields:
how the call ended and the calls it made to its collaborators, in order. -/
structure Run (R T V : Type) where
  result : R
  calls : List (Call T V)
deriving DecidableEq, Repr

/-- What a run of `scanAttestationValues` yields: how the call ended, the memory it
left, and the calls it made to its collaborators, in order. -/
structure ScanRun (E T V : Type) where
  result : Result E Unit
  heap : Heap V
  calls : List (Call T V)

variable {T V E : Type}

/-! ## `decodeAttestationValues` -/

/-- The `switch l := len(parts)` of the loop body: `none` is `continue`; with two
parts the item is `(parts[0], parts[1])`; otherwise the type is
`strings.Join(parts[:l-2], " ")` and the name `parts[l-1]`. -/
def declItem (parts : List Str) : Option (SchemaItem V) :=
  match parts with
  | [] => none
  | [_] => none
  | [p0, p1] => some { Type_ := p0, Name := p1, Value := none }
  | _ =>
    let l := parts.length
    some { Type_ := Join (parts.take (l - 2)) [' '], Name := parts.getD (l - 1) [],
           Value := none }

/-- The loop `for _, declaration := range strings.Split(schema, ",")` run over the
remaining declarations, from the `args` and `items` appended so far.  A failing
`abi.NewType` returns its error at once. -/
def decodeLoop (x : Externals T V E) :
    List Str → List T → List (SchemaItem V) → List (Call T V) →
      Run (Except E (List T × List (SchemaItem V))) T V
  | [], args, items, calls => ⟨.ok (args, items), calls⟩
  | declaration :: rest, args, items, calls =>
    let declaration := TrimSpace declaration
    let parts := Fields declaration
    match (declItem parts : Option (SchemaItem V)) with
    | none => decodeLoop x rest args items calls
    | some item =>
      match x.NewType item.Type_ with
      | .error err => ⟨.error err, calls ++ [.newType item.Type_]⟩
      | .ok t => decodeLoop x rest (args ++ [t]) (items ++ [item]) (calls ++ [.newType item.Type_])

/-- The loop `for i, v := range values`, from index `i`: `items[i]` gets the value
`v`; `none` is the run-time panic of an index out of range. -/
def assignValues : List V → Nat → List (SchemaItem V) → Option (List (SchemaItem V))
  | [], _, items => some items
  | v :: vs, i, items =>
    if h : i < items.length then
      let item := items[i]
      assignValues vs (i + 1) (items.set i { item with Value := some v })
    else none

/-- The function `decodeAttestationValues(data, schema)`. -/
def decodeAttestationValues (x : Externals T V E) (data : Bytes) (schema : Str) :
    Run (Result E (List (SchemaItem V))) T V :=
  match decodeLoop x (Split schema ',') [] [] [] with
  | ⟨.error err, calls⟩ => ⟨.err (.ext err), calls⟩
  | ⟨.ok (args, items), calls⟩ =>
    match x.Unpack args data with
    | .error err => ⟨.err (.ext err), calls ++ [.unpack args data]⟩
    | .ok values =>
      match assignValues values 0 items with
      | none => ⟨.panic, calls ++ [.unpack args data]⟩
      | some items => ⟨.ok items, calls ++ [.unpack args data]⟩

/-! ## `encodeAttestationValues` -/

/-- The loop `for _, v := range values` of `encodeAttestationValues`, from the
`args` appended so far. -/
def encodeLoop (x : Externals T V E) :
    List V → List T → List (Call T V) → Run (Except E (List T)) T V
  | [], args, calls => ⟨.ok args, calls⟩
  | v :: rest, args, calls =>
    match x.getTypeString v with
    | .error err => ⟨.error err, calls ++ [.getTypeString v]⟩
    | .ok typeString =>
      match x.NewType typeString with
      | .error err => ⟨.error err, calls ++ [.getTypeString v, .newType typeString]⟩
      | .ok t =>
        encodeLoop x rest (args ++ [t]) (calls ++ [.getTypeString v, .newType typeString])

/-- The function `encodeAttestationValues(values)`. -/
def encodeAttestationValues (x : Externals T V E) (values : List V) :
    Run (Result E Bytes) T V :=
  match encodeLoop x values [] [] with
  | ⟨.error err, calls⟩ => ⟨.err (.ext err), calls⟩
  | ⟨.ok args, calls⟩ =>
    match x.Pack args values with
    | .error err => ⟨.err (.ext err), calls ++ [.pack args values]⟩
    | .ok data => ⟨.ok data, calls ++ [.pack args values]⟩

/-! ## `scanAttestationValues` -/

/-- The expression `reflect.Indirect(reflect.ValueOf(arg)).Interface()`: the pointee of
a pointer, a non-pointer value itself; on nil, `Interface` is called on the zero
`reflect.Value` and panics (`none`). -/
def indirect (h : Heap V) : Arg V → Option V
  | .ptr a => some (h a)
  | .val v => some v
  | .nil => none

/-- The first loop of `scanAttestationValues`, from the `abiArgs` appended so far;
it reads memory and does not write it. -/
def scanLoop (x : Externals T V E) (h : Heap V) :
    List (Arg V) → List T → List (Call T V) → Run (Result E (List T)) T V
  | [], abiArgs, calls => ⟨.ok abiArgs, calls⟩
  | arg :: rest, abiArgs, calls =>
    match indirect h arg with
    | none => ⟨.panic, calls⟩
    | some v =>
      match x.getTypeString v with
      | .error err => ⟨.err (.ext err), calls ++ [.getTypeString v]⟩
      | .ok typeString =>
        match x.NewType typeString with
        | .error err => ⟨.err (.ext err), calls ++ [.getTypeString v, .newType typeString]⟩
        | .ok t =>
          scanLoop x h rest (abiArgs ++ [t]) (calls ++ [.getTypeString v, .newType typeString])

/-- The loop `for i, arg := range args` of `scanAttestationValues`, from index `i`:
`taint.Inject(values[i], arg)`, stopping at the first error. -/
def injectLoop (x : Externals T V E) (values : List V) :
    List (Arg V) → Nat → Heap V → List (Call T V) → ScanRun E T V
  | [], _, h, calls => ⟨.ok (), h, calls⟩
  | arg :: rest, i, h, calls =>
    match values[i]? with
    | none => ⟨.panic, h, calls⟩
    | some v =>
      match x.Inject v arg h with
      | (h1, some err) => ⟨.err (.ext err), h1, calls ++ [.inject v arg]⟩
      | (h1, none) => injectLoop x values rest (i + 1) h1 (calls ++ [.inject v arg])

/-- The function `scanAttestationValues(data, args...)`, run on the memory `h`. -/
def scanAttestationValues (x : Externals T V E) (h : Heap V) (data : Bytes)
    (args : List (Arg V)) : ScanRun E T V :=
  match scanLoop x h args [] [] with
  | ⟨.panic, calls⟩ => ⟨.panic, h, calls⟩
  | ⟨.err err, calls⟩ => ⟨.err err, h, calls⟩
  | ⟨.ok abiArgs, calls⟩ =>
    match x.Unpack abiArgs data with
    | .error err => ⟨.err (.ext err), h, calls ++ [.unpack abiArgs data]⟩
    | .ok values =>
      if args.length ≠ values.length then
        ⟨.err (.new "unable to unpack all fields".data), h, calls ++ [.unpack abiArgs data]⟩
      else
        injectLoop x values args 0 h (calls ++ [.unpack abiArgs data])

/-! ## Notions used to state the properties -/

/-- The switch of the decode loop applied to one comma-separated declaration. -/
def declOf (d : Str) : Option (SchemaItem V) := declItem (Fields (TrimSpace d))

/-- The fields a schema declares: for each comma-separated declaration that passes the
switch of the decode loop, in order, its item, still without a value. -/
def declarations (schema : Str) : List (SchemaItem V) :=
  (Split schema ',').filterMap declOf

/-- The decode loop over the items that passed the switch: `abi.NewType` on each
type string in turn, until one fails. -/
def itemLoop (x : Externals T V E) :
    List (SchemaItem V) → List T → List (SchemaItem V) → List (Call T V) →
      Run (Except E (List T × List (SchemaItem V))) T V
  | [], args, items, calls => ⟨.ok (args, items), calls⟩
  | item :: rest, args, items, calls =>
    match x.NewType item.Type_ with
    | .error err => ⟨.error err, calls ++ [.newType item.Type_]⟩
    | .ok t => itemLoop x rest (args ++ [t]) (items ++ [item]) (calls ++ [.newType item.Type_])

/-- The wire type the encode and scan loops build for a value: `abi.NewType` of its
`getTypeString`; `none` when either call fails. -/
def valueType (x : Externals T V E) (v : V) : Option T :=
  match x.getTypeString v with
  | .error _ => none
  | .ok typeString =>
    match x.NewType typeString with
    | .error _ => none
    | .ok t => some t

/-- The wire type the scan loop builds for an argument, from what the argument
points to in memory; `none` when the argument is nil or a call fails. -/
def argType (x : Externals T V E) (h : Heap V) (arg : Arg V) : Option T :=
  (indirect h arg).bind (valueType x)

/-- The item with its `Value` set. -/
def withValue (item : SchemaItem V) (v : V) : SchemaItem V := { item with Value := some v }

/-- The type resolution the encode and scan loops apply to a value:
`getTypeString`, then `abi.NewType` on its result; the error is that of the call
that failed. -/
def resolveType (x : Externals T V E) (v : V) : Except E T :=
  match x.getTypeString v with
  | .error err => .error err
  | .ok typeString => x.NewType typeString

/-- The calls the type resolution of a value makes: `getTypeString`, and
`abi.NewType` on the type string when there is one. -/
def resolveCalls (x : Externals T V E) (v : V) : List (Call T V) :=
  match x.getTypeString v with
  | .error _ => [.getTypeString v]
  | .ok typeString => [.getTypeString v, .newType typeString]

/-- The calls the scan loop makes for one argument: those of the type resolution of
what the argument points to; none when the argument is nil. -/
def argCalls (x : Externals T V E) (h : Heap V) (arg : Arg V) : List (Call T V) :=
  match indirect h arg with
  | none => []
  | some v => resolveCalls x v

/-- The Go result that hands on a collaborator's result unchanged: its value with a
nil error, or its error with the zero value. -/
def handOn {A : Type} : Except E A → Result E A
  | .ok a => .ok a
  | .error err => .err (.ext err)

/-- The memory left by `taint.Inject` applied to the pairs of a value and a
destination one after the other, each on the memory left by the one before. -/
def heapAfter (x : Externals T V E) (pairs : List (V × Arg V)) (h : Heap V) : Heap V :=
  pairs.foldl (fun h1 p => (x.Inject p.1 p.2 h1).1) h

/-- Whether `taint.Inject` returns nil for every pair of a value and a destination,
when applied to them one after the other, each on the memory left by the one
before. -/
def injectsOk (x : Externals T V E) : List (V × Arg V) → Heap V → Bool
  | [], _ => true
  | p :: rest, h =>
    match x.Inject p.1 p.2 h with
    | (h1, none) => injectsOk x rest h1
    | (_, some _) => false

/-! ## A small concrete codec

A three-type instance of `Externals`, used to run the three functions on concrete
inputs: the wire types `uint64`, `string` and the tuple `(uint64,string)`, with a
length-prefixed byte layout. -/

namespace Sample

/-- The wire types of the sample codec. -/
inductive Ty where
  | uint64
  | string
  | pair
deriving DecidableEq, Repr

/-- The values of the sample codec: a `uint64`, a `string`, and a struct of both. -/
inductive Val where
  | num (n : Nat)
  | str (s : Str)
  | pair (n : Nat) (s : Str)
deriving DecidableEq, Repr

/-- The errors of the sample codec. -/
inductive Err where
  | invalidType
  | encoding
  | decoding
  | destination
deriving DecidableEq, Repr

/-- The wire type string of a value. -/
def getTypeString : Val → Except Err Str
  | .num _ => .ok "uint64".data
  | .str _ => .ok "string".data
  | .pair _ _ => .ok "(uint64,string)".data

/-- The wire type named by a type string; any other string is rejected. -/
def NewType (t : Str) : Except Err Ty :=
  if t = "uint64".data then .ok .uint64
  else if t = "string".data then .ok .string
  else if t = "(uint64,string)".data then .ok .pair
  else .error .invalidType

/-- The bytes of one value at one type; `none` when the value is not of the type. -/
def packOne : Ty → Val → Option Bytes
  | .uint64, .num n => if n < 2 ^ 64 then some [n] else none
  | .string, .str s => some (s.length :: s.map Char.toNat)
  | .pair, .pair n s => if n < 2 ^ 64 then some (n :: s.length :: s.map Char.toNat) else none
  | _, _ => none

/-- The bytes of a list of values at a list of types of the same length. -/
def Pack : List Ty → List Val → Except Err Bytes
  | [], [] => .ok []
  | t :: ts, v :: vs =>
    match packOne t v, Pack ts vs with
    | some b, .ok bs => .ok (b ++ bs)
    | _, _ => .error .encoding
  | _, _ => .error .encoding

/-- A string of `len` characters read from the front of the data, and the rest. -/
def readStr (len : Nat) (data : Bytes) : Option (Str × Bytes) :=
  if len ≤ data.length then some ((data.take len).map Char.ofNat, data.drop len) else none

/-- One value of the given type read from the front of the data, and the rest;
`none` when the data is too short. -/
def unpackOne : Ty → Bytes → Option (Val × Bytes)
  | .uint64, n :: rest => some (.num n, rest)
  | .string, len :: rest => (readStr len rest).map fun (s, r) => (.str s, r)
  | .pair, n :: len :: rest => (readStr len rest).map fun (s, r) => (.pair n s, r)
  | _, _ => none

/-- One value per type, read from the data in order. -/
def Unpack : List Ty → Bytes → Except Err (List Val)
  | [], _ => .ok []
  | t :: ts, data =>
    match unpackOne t data with
    | none => .error .decoding
    | some (v, rest) =>
      match Unpack ts rest with
      | .ok vs => .ok (v :: vs)
      | .error e => .error e

/-- Whether two values are of the same Go type. -/
def sameType : Val → Val → Bool
  | .num _, .num _ => true
  | .str _, .str _ => true
  | .pair _ _, .pair _ _ => true
  | _, _ => false

/-- The value stored through a pointer to a cell holding a value of its type; a
destination that is no such pointer is refused and memory is left as it was. -/
def Inject (v : Val) : Arg Val → Heap Val → Heap Val × Option Err
  | .ptr a, h => if sameType (h a) v then (Function.update h a v, none) else (h, some .destination)
  | _, h => (h, some .destination)

/-- The sample codec. -/
def codec : Externals Ty Val Err :=
  { getTypeString := getTypeString, NewType := NewType, Pack := Pack, Unpack := Unpack,
    Inject := Inject }

/-- The sample codec with an `Unpack` that returns no values, whatever the types. -/
def emptyUnpack : Externals Ty Val Err :=
  { codec with Unpack := fun _ _ => .ok [] }

/-- The sample codec with an `Unpack` that returns one value more than a correct one. -/
def longUnpack : Externals Ty Val Err :=
  { codec with Unpack := fun ts data => (Unpack ts data).map fun vs => vs ++ [.num 0] }

end Sample

/-! ## Lemmas on `strings.Split` -/

theorem Split_ne_nil (s : Str) (sep : Char) : Split s sep ≠ [] := by
  induction s with
  | nil => simp [Split]
  | cons c cs ih =>
    unfold Split
    split
    · simp
    · split <;> simp

theorem Split_cons_sep (s : Str) (sep : Char) : Split (sep :: s) sep = [] :: Split s sep := by
  rw [Split]; simp

theorem Split_append_sep (a b : Str) (sep : Char) :
    Split (a ++ sep :: b) sep = Split a sep ++ Split b sep := by
  induction a with
  | nil => simp [Split]
  | cons c cs ih =>
    by_cases hc : c = sep
    · subst hc
      simp [Split_cons_sep, ih]
    · have h1 : Split (c :: (cs ++ sep :: b)) sep =
          (match Split (cs ++ sep :: b) sep with
            | [] => [[c]]
            | f :: fs => (c :: f) :: fs) := by
        rw [Split]; simp [hc]
      have h2 : Split (c :: cs) sep =
          (match Split cs sep with
            | [] => [[c]]
            | f :: fs => (c :: f) :: fs) := by
        rw [Split]; simp [hc]
      rw [List.cons_append, h1, h2, ih]
      cases h : Split cs sep with
      | nil => exact absurd h (Split_ne_nil cs sep)
      | cons f fs => simp

theorem Split_of_not_mem (s : Str) (sep : Char) (h : sep ∉ s) : Split s sep = [s] := by
  induction s with
  | nil => simp [Split]
  | cons c cs ih =>
    have hc : c ≠ sep := fun e => h (by simp [e])
    have hcs : sep ∉ cs := fun e => h (by simp [e])
    rw [Split]; simp [hc, ih hcs]

theorem not_mem_of_mem_Split (s : Str) (sep : Char) : ∀ f ∈ Split s sep, sep ∉ f := by
  induction s with
  | nil => simp [Split]
  | cons c cs ih =>
    by_cases hc : c = sep
    · subst hc
      rw [Split_cons_sep]
      intro f hf
      rcases List.mem_cons.1 hf with rfl | hf
      · simp
      · exact ih f hf
    · rw [Split]
      simp only [hc, if_false]
      cases h : Split cs sep with
      | nil => exact absurd h (Split_ne_nil cs sep)
      | cons g gs =>
        rw [h] at ih
        intro f hf
        rcases List.mem_cons.1 hf with rfl | hf
        · have := ih g (by simp)
          intro hm
          rcases List.mem_cons.1 hm with e | e
          · exact hc e.symm
          · exact this e
        · exact ih f (by simp [hf])

theorem Split_Join (fs : List Str) (sep : Char) (hne : fs ≠ []) (h : ∀ f ∈ fs, sep ∉ f) :
    Split (Join fs [sep]) sep = fs := by
  induction fs with
  | nil => exact absurd rfl hne
  | cons f fs ih =>
    cases fs with
    | nil => simpa [Join] using Split_of_not_mem f sep (h f (by simp))
    | cons g gs =>
      have hj : Join (f :: g :: gs) [sep] = f ++ sep :: Join (g :: gs) [sep] := by
        simp [Join]
      rw [hj, Split_append_sep, Split_of_not_mem f sep (h f (by simp)),
        ih (by simp) (fun a ha => h a (by simp [ha]))]
      simp

/-! ## Lemmas on the decode loops -/

theorem decodeLoop_eq_itemLoop (x : Externals T V E) (frags : List Str) (args : List T)
    (items : List (SchemaItem V)) (calls : List (Call T V)) :
    decodeLoop x frags args items calls = itemLoop x (frags.filterMap declOf) args items calls := by
  induction frags generalizing args items calls with
  | nil => simp [decodeLoop, itemLoop]
  | cons d rest ih =>
    cases hd : (declOf d : Option (SchemaItem V)) with
    | none =>
      have hd1 : (declItem (Fields (TrimSpace d)) : Option (SchemaItem V)) = none := hd
      rw [List.filterMap_cons_none hd]
      simp only [decodeLoop, hd1]
      exact ih args items calls
    | some item =>
      have hd1 : (declItem (Fields (TrimSpace d)) : Option (SchemaItem V)) = some item := hd
      rw [List.filterMap_cons_some hd]
      simp only [decodeLoop, hd1, itemLoop]
      cases x.NewType item.Type_ with
      | error e => rfl
      | ok t => exact ih _ _ _

theorem itemLoop_ok (x : Externals T V E) (fs : List (SchemaItem V)) (ts : List T)
    (h : List.Forall₂ (fun f t => x.NewType f.Type_ = .ok t) fs ts) (args : List T)
    (items : List (SchemaItem V)) (calls : List (Call T V)) :
    itemLoop x fs args items calls =
      ⟨.ok (args ++ ts, items ++ fs), calls ++ fs.map fun f => .newType f.Type_⟩ := by
  induction h generalizing args items calls with
  | nil => simp [itemLoop]
  | cons hft _ ih =>
    simp only [itemLoop, hft]
    rw [ih]
    simp

theorem itemLoop_error (x : Externals T V E) (pre : List (SchemaItem V)) (f : SchemaItem V)
    (post : List (SchemaItem V)) (ts : List T) (e : E)
    (h : List.Forall₂ (fun f t => x.NewType f.Type_ = .ok t) pre ts)
    (hf : x.NewType f.Type_ = .error e) (args : List T)
    (items : List (SchemaItem V)) (calls : List (Call T V)) :
    itemLoop x (pre ++ f :: post) args items calls =
      ⟨.error e, calls ++ (pre ++ [f]).map fun f => .newType f.Type_⟩ := by
  induction h generalizing args items calls with
  | nil => simp [itemLoop, hf]
  | cons hft _ ih =>
    rw [List.cons_append]
    simp only [itemLoop, hft]
    rw [ih]
    simp

/-- Every run of the item loop either accepts all types or stops at a first rejected one. -/
theorem itemLoop_cases (x : Externals T V E) (fs : List (SchemaItem V)) :
    (∃ ts, List.Forall₂ (fun f t => x.NewType f.Type_ = .ok t) fs ts) ∨
    (∃ pre f post ts e, fs = pre ++ f :: post ∧
      List.Forall₂ (fun f t => x.NewType f.Type_ = .ok t) pre ts ∧
      x.NewType f.Type_ = .error e) := by
  induction fs with
  | nil => exact Or.inl ⟨[], List.Forall₂.nil⟩
  | cons f fs ih =>
    cases hf : x.NewType f.Type_ with
    | error e => exact Or.inr ⟨[], f, fs, [], e, rfl, List.Forall₂.nil, hf⟩
    | ok t =>
      rcases ih with ⟨ts, hts⟩ | ⟨pre, g, post, ts, e, hfs, hts, hg⟩
      · exact Or.inl ⟨t :: ts, List.Forall₂.cons hf hts⟩
      · exact Or.inr ⟨f :: pre, g, post, t :: ts, e, by simp [hfs], List.Forall₂.cons hf hts, hg⟩

theorem assignValues_succ_cons (vs : List V) (i : Nat) (a : SchemaItem V)
    (items : List (SchemaItem V)) :
    assignValues vs (i + 1) (a :: items) = (assignValues vs i items).map (a :: ·) := by
  induction vs generalizing i items with
  | nil => simp [assignValues]
  | cons v vs ih =>
    by_cases h : i < items.length
    · simp [assignValues, h, ih]
    · simp [assignValues, h]

theorem assignValues_zero_cons (v : V) (vs : List V) (a : SchemaItem V)
    (items : List (SchemaItem V)) :
    assignValues (v :: vs) 0 (a :: items) =
      (assignValues vs 0 items).map (withValue a v :: ·) := by
  simp [assignValues, assignValues_succ_cons, withValue]

theorem assignValues_of_le (vs : List V) (items : List (SchemaItem V))
    (h : vs.length ≤ items.length) :
    assignValues vs 0 items =
      some (List.zipWith withValue (items.take vs.length) vs ++ items.drop vs.length) := by
  induction vs generalizing items with
  | nil => simp [assignValues]
  | cons v vs ih =>
    cases items with
    | nil => simp at h
    | cons a items =>
      have h1 : vs.length ≤ items.length := by simpa using h
      rw [assignValues_zero_cons, ih items h1]
      simp

theorem assignValues_of_lt (vs : List V) (items : List (SchemaItem V))
    (h : items.length < vs.length) : assignValues vs 0 items = none := by
  induction vs generalizing items with
  | nil => simp at h
  | cons v vs ih =>
    cases items with
    | nil => simp [assignValues]
    | cons a items =>
      have h1 : items.length < vs.length := by simpa using h
      rw [assignValues_zero_cons, ih items h1]
      rfl

/-- The calls of the schema loop when every type string is accepted. -/
theorem decodeLoop_split (x : Externals T V E) (schema : Str) :
    decodeLoop x (Split schema ',') [] [] [] =
      itemLoop x (declarations schema : List (SchemaItem V)) [] [] [] :=
  decodeLoop_eq_itemLoop x _ _ _ _

theorem decode_newType_error (x : Externals T V E) (data : Bytes) (schema : Str)
    (pre : List (SchemaItem V)) (f : SchemaItem V) (post : List (SchemaItem V))
    (ts : List T) (e : E) (hd : declarations schema = pre ++ f :: post)
    (h : List.Forall₂ (fun f t => x.NewType f.Type_ = .ok t) pre ts)
    (hf : x.NewType f.Type_ = .error e) :
    decodeAttestationValues x data schema =
      ⟨.err (.ext e), (pre ++ [f]).map fun f => .newType f.Type_⟩ := by
  unfold decodeAttestationValues
  rw [decodeLoop_split, hd, itemLoop_error x pre f post ts e h hf]
  simp

theorem decode_unpack_error (x : Externals T V E) (data : Bytes) (schema : Str) (ts : List T)
    (e : E)
    (h : List.Forall₂ (fun f t => x.NewType f.Type_ = .ok t)
      (declarations schema : List (SchemaItem V)) ts)
    (hu : x.Unpack ts data = .error e) :
    decodeAttestationValues x data schema =
      ⟨.err (.ext e),
        ((declarations schema : List (SchemaItem V)).map fun f => .newType f.Type_) ++
          [.unpack ts data]⟩ := by
  unfold decodeAttestationValues
  rw [decodeLoop_split, itemLoop_ok x _ ts h]
  simp [hu]

theorem decode_unpack_ok (x : Externals T V E) (data : Bytes) (schema : Str) (ts : List T)
    (values : List V)
    (h : List.Forall₂ (fun f t => x.NewType f.Type_ = .ok t)
      (declarations schema : List (SchemaItem V)) ts)
    (hu : x.Unpack ts data = .ok values) :
    decodeAttestationValues x data schema =
      ⟨(match assignValues values 0 (declarations schema : List (SchemaItem V)) with
        | none => .panic
        | some items => .ok items),
        ((declarations schema : List (SchemaItem V)).map fun f => .newType f.Type_) ++
          [.unpack ts data]⟩ := by
  unfold decodeAttestationValues
  rw [decodeLoop_split, itemLoop_ok x _ ts h]
  simp only [List.nil_append, hu]
  cases assignValues values 0 (declarations schema : List (SchemaItem V)) <;> rfl

theorem decode_congr (x : Externals T V E) (data : Bytes) (s s1 : Str)
    (h : (declarations s : List (SchemaItem V)) = declarations s1) :
    decodeAttestationValues x data s = decodeAttestationValues x data s1 := by
  unfold decodeAttestationValues
  rw [decodeLoop_split, decodeLoop_split, h]

theorem decode_ok_inv (x : Externals T V E) (data : Bytes) (schema : Str)
    (items : List (SchemaItem V))
    (hok : (decodeAttestationValues x data schema).result = .ok items) :
    ∃ ts values,
      List.Forall₂ (fun f t => x.NewType f.Type_ = .ok t)
        (declarations schema : List (SchemaItem V)) ts ∧
      x.Unpack ts data = .ok values ∧
      assignValues values 0 (declarations schema : List (SchemaItem V)) = some items := by
  rcases itemLoop_cases x (declarations schema : List (SchemaItem V)) with
    ⟨ts, hts⟩ | ⟨pre, f, post, ts, e, hd, hts, hf⟩
  · cases hu : x.Unpack ts data with
    | error e =>
      rw [decode_unpack_error x data schema ts e hts hu] at hok
      simp at hok
    | ok values =>
      rw [decode_unpack_ok x data schema ts values hts hu] at hok
      refine ⟨ts, values, hts, hu, ?_⟩
      cases ha : assignValues values 0 (declarations schema : List (SchemaItem V)) with
      | none => rw [ha] at hok; simp at hok
      | some r =>
        rw [ha] at hok
        simp only [Result.ok.injEq] at hok
        rw [hok]
  · rw [decode_newType_error x data schema pre f post ts e hd hts hf] at hok
    simp at hok

theorem assignValues_some_le (vs : List V) (items r : List (SchemaItem V))
    (h : assignValues vs 0 items = some r) : vs.length ≤ items.length := by
  by_contra hlt
  rw [assignValues_of_lt vs items (by omega)] at h
  simp at h

theorem assignValues_keeps_fields (vs : List V) (items r : List (SchemaItem V))
    (h : assignValues vs 0 items = some r) :
    r.map (fun it => (it.Name, it.Type_)) = items.map (fun it => (it.Name, it.Type_)) := by
  induction vs generalizing items r with
  | nil =>
    simp only [assignValues, Option.some.injEq] at h
    rw [h]
  | cons v vs ih =>
    cases items with
    | nil => simp [assignValues] at h
    | cons a items =>
      rw [assignValues_zero_cons] at h
      cases h1 : assignValues vs 0 items with
      | none => rw [h1] at h; simp at h
      | some r1 =>
        rw [h1] at h
        simp only [Option.map_some', Option.some.injEq] at h
        rw [← h]
        simp [withValue, ih items r1 h1]

/-! ## Lemmas on the declarations of a schema -/

theorem declOf_nil : (declOf [] : Option (SchemaItem V)) = none := by
  simp [declOf, TrimSpace, Fields, fieldsFrom, declItem]

theorem declOf_eq_none_iff (d : Str) :
    (declOf d : Option (SchemaItem V)) = none ↔ (Fields (TrimSpace d)).length < 2 := by
  unfold declOf
  cases h : Fields (TrimSpace d) with
  | nil => simp [declItem]
  | cons a l =>
    cases l with
    | nil => simp [declItem]
    | cons b l =>
      cases l with
      | nil => simp [declItem]
      | cons c l => simp [declItem]

theorem declarations_nil : (declarations [] : List (SchemaItem V)) = [] := by
  simp [declarations, Split, declOf_nil]

theorem declarations_append_sep (a b : Str) :
    (declarations (a ++ ',' :: b) : List (SchemaItem V)) = declarations a ++ declarations b := by
  simp [declarations, Split_append_sep]

theorem declarations_leading_commas (n : Nat) (s : Str) :
    (declarations (List.replicate n ',' ++ s) : List (SchemaItem V)) = declarations s := by
  induction n with
  | zero => simp
  | succ n ih =>
    have h : List.replicate (n + 1) ',' ++ s = [] ++ ',' :: (List.replicate n ',' ++ s) := by
      simp [List.replicate_succ]
    rw [h, declarations_append_sep, ih, declarations_nil, List.nil_append]

theorem declarations_trailing_commas (n : Nat) (s : Str) :
    (declarations (s ++ List.replicate n ',') : List (SchemaItem V)) = declarations s := by
  cases n with
  | zero => simp
  | succ n =>
    have h : s ++ List.replicate (n + 1) ',' = s ++ ',' :: (List.replicate n ',' ++ []) := by
      simp [List.replicate_succ]
    rw [h, declarations_append_sep, declarations_leading_commas, declarations_nil,
      List.append_nil]

theorem filterMap_filter_of_none {α β : Type} (f : α → Option β) (p : α → Bool) (l : List α)
    (h : ∀ a ∈ l, p a = false → f a = none) :
    (l.filter p).filterMap f = l.filterMap f := by
  induction l with
  | nil => rfl
  | cons a l ih =>
    have ih1 := ih (fun b hb => h b (by simp [hb]))
    cases hp : p a with
    | true => 
      rw [List.filter_cons_of_pos (by simpa using hp)]
      cases hf : f a with
      | none => rw [List.filterMap_cons_none hf, List.filterMap_cons_none hf, ih1]
      | some b => rw [List.filterMap_cons_some hf, List.filterMap_cons_some hf, ih1]
    | false =>
      rw [List.filter_cons_of_neg (by simp [hp]), List.filterMap_cons_none (h a (by simp) hp), ih1]

theorem declarations_filter (schema : Str) :
    (declarations
      (Join ((Split schema ',').filter fun d => decide (2 ≤ (Fields (TrimSpace d)).length)) [',']) :
        List (SchemaItem V)) = declarations schema := by
  have hfm : (((Split schema ',').filter
      fun d => decide (2 ≤ (Fields (TrimSpace d)).length)).filterMap declOf :
        List (SchemaItem V)) = (Split schema ',').filterMap declOf := by
    apply filterMap_filter_of_none
    intro d _ hd
    rw [declOf_eq_none_iff]
    simpa using hd
  by_cases hne : ((Split schema ',').filter
      fun d => decide (2 ≤ (Fields (TrimSpace d)).length)) = []
  · rw [hne] at hfm
    rw [hne]
    simp only [Join, declarations_nil]
    simpa [declarations] using hfm
  · unfold declarations
    rw [Split_Join _ _ hne, hfm]
    intro f hf
    exact not_mem_of_mem_Split schema ',' f (List.mem_of_mem_filter hf)

theorem getElem?_append_length {α : Type} (l : List α) (a : α) (r : List α) :
    (l ++ a :: r)[l.length]? = some a := by
  rw [List.getElem?_append_right (le_refl _)]
  simp

theorem itemLoop_calls_prefix (x : Externals T V E) (fs : List (SchemaItem V)) (args : List T)
    (items : List (SchemaItem V)) (calls : List (Call T V)) :
    ∃ rest, (itemLoop x fs args items calls).calls = calls ++ rest := by
  induction fs generalizing args items calls with
  | nil => exact ⟨[], by simp [itemLoop]⟩
  | cons f fs ih =>
    simp only [itemLoop]
    cases x.NewType f.Type_ with
    | error e => exact ⟨_, rfl⟩
    | ok t =>
      obtain ⟨rest, hrest⟩ := ih (args ++ [t]) (items ++ [f]) (calls ++ [.newType f.Type_])
      exact ⟨.newType f.Type_ :: rest, by simp [hrest]⟩

theorem itemLoop_calls_reach (x : Externals T V E) (pre : List (SchemaItem V))
    (f : SchemaItem V) (post : List (SchemaItem V)) (ts : List T)
    (h : List.Forall₂ (fun f t => x.NewType f.Type_ = .ok t) pre ts) (args : List T)
    (items : List (SchemaItem V)) (calls : List (Call T V)) :
    ∃ rest, (itemLoop x (pre ++ f :: post) args items calls).calls =
      calls ++ (pre.map fun f => .newType f.Type_) ++ .newType f.Type_ :: rest := by
  induction h generalizing args items calls with
  | nil =>
    simp only [List.nil_append, itemLoop, List.map_nil, List.append_nil]
    cases x.NewType f.Type_ with
    | error e => exact ⟨[], rfl⟩
    | ok t =>
      obtain ⟨rest, hrest⟩ :=
        itemLoop_calls_prefix x post (args ++ [t]) (items ++ [f]) (calls ++ [.newType f.Type_])
      exact ⟨rest, by simp [hrest]⟩
  | @cons a b _ _ hft _ ih =>
    rw [List.cons_append]
    simp only [itemLoop, hft]
    obtain ⟨rest, hrest⟩ := ih (args ++ [b]) (items ++ [a]) (calls ++ [.newType a.Type_])
    exact ⟨rest, by simp [hrest]⟩

theorem decode_calls_prefix (x : Externals T V E) (data : Bytes) (schema : Str) :
    ∃ rest, (decodeAttestationValues x data schema).calls =
      (itemLoop x (declarations schema : List (SchemaItem V)) [] [] []).calls ++ rest := by
  unfold decodeAttestationValues
  rw [decodeLoop_split]
  rcases itemLoop x (declarations schema : List (SchemaItem V)) [] [] [] with ⟨r, calls⟩
  cases r with
  | error e => exact ⟨[], by simp⟩
  | ok p =>
    obtain ⟨args, items⟩ := p
    simp only
    cases x.Unpack args data with
    | error e => exact ⟨_, rfl⟩
    | ok values =>
      simp only
      cases assignValues values 0 items <;> exact ⟨_, rfl⟩

theorem forall₂_of_forall_ok (x : Externals T V E) (fs : List (SchemaItem V))
    (h : ∀ f ∈ fs, ∃ t, x.NewType f.Type_ = .ok t) :
    ∃ ts, List.Forall₂ (fun f t => x.NewType f.Type_ = .ok t) fs ts := by
  induction fs with
  | nil => exact ⟨[], List.Forall₂.nil⟩
  | cons f fs ih =>
    obtain ⟨t, ht⟩ := h f (by simp)
    obtain ⟨ts, hts⟩ := ih (fun g hg => h g (by simp [hg]))
    exact ⟨t :: ts, List.Forall₂.cons ht hts⟩

theorem forall_ok_of_forall₂ (x : Externals T V E) (fs : List (SchemaItem V)) (ts : List T)
    (h : List.Forall₂ (fun f t => x.NewType f.Type_ = .ok t) fs ts) :
    ∀ f ∈ fs, ∃ t, x.NewType f.Type_ = .ok t := by
  induction h with
  | nil => simp
  | cons hft _ ih =>
    intro f hf
    rcases List.mem_cons.1 hf with rfl | hf
    · exact ⟨_, hft⟩
    · exact ih f hf

/-! ## The properties of `decodeAttestationValues` -/

/-- C3, evaluated on the code: the fragment `a b c` is parsed with type `a` and name
`c`, the token `b` before the name being dropped by `parts[:l-2]`; and the schema
`uint64 big id` decodes as a field `id` of type `uint64`, not of type `uint64 big`. -/
theorem decode_three_token_fragment_drops_token :
    (declarations "a b c".data : List (SchemaItem Sample.Val)) =
        [{ Name := "c".data, Type_ := "a".data, Value := none }] ∧
      "a".data ≠ "a b".data ∧
      decodeAttestationValues Sample.codec [7] "uint64 big id".data =
        ⟨.ok [{ Name := "id".data, Type_ := "uint64".data, Value := some (.num 7) }],
          [.newType "uint64".data, .unpack [.uint64] [7]]⟩ := by
  decide

/-- C4: a comma-separated fragment with exactly two tokens `t0 t1` is parsed as the
field of type `t0` and name `t1`, at the position `k` it has among the parsed
fields; when the loop reaches it, the `k`-th call to `abi.NewType` receives exactly
`t0`; and when decoding succeeds the `k`-th item has type `t0` and name `t1`. -/
theorem decode_two_token_fragment (x : Externals T V E) (data : Bytes) (schema : Str)
    (pre : List Str) (d : Str) (post : List Str) (t0 t1 : Str)
    (hsplit : Split schema ',' = pre ++ d :: post)
    (hparts : Fields (TrimSpace d) = [t0, t1]) :
    (declarations schema : List (SchemaItem V))[(pre.filterMap
        (declOf : Str → Option (SchemaItem V))).length]? =
      some { Name := t1, Type_ := t0, Value := none } ∧
    ((∀ f ∈ (pre.filterMap declOf : List (SchemaItem V)), ∃ t, x.NewType f.Type_ = .ok t) →
      (decodeAttestationValues x data schema).calls[(pre.filterMap
        (declOf : Str → Option (SchemaItem V))).length]? = some (.newType t0)) ∧
    (∀ items, (decodeAttestationValues x data schema).result = .ok items →
      ∃ item, items[(pre.filterMap (declOf : Str → Option (SchemaItem V))).length]? =
        some item ∧ item.Type_ = t0 ∧ item.Name = t1) := by
  have hd : (declOf d : Option (SchemaItem V)) =
      some { Name := t1, Type_ := t0, Value := none } := by
    simp [declOf, hparts, declItem]
  have hdecl : (declarations schema : List (SchemaItem V)) =
      pre.filterMap declOf ++
        { Name := t1, Type_ := t0, Value := none } :: post.filterMap declOf := by
    simp [declarations, hsplit, List.filterMap_append, List.filterMap_cons_some hd]
  have hk : (declarations schema : List (SchemaItem V))[(pre.filterMap
        (declOf : Str → Option (SchemaItem V))).length]? =
      some { Name := t1, Type_ := t0, Value := none } := by
    rw [hdecl]; exact getElem?_append_length _ _ _
  refine ⟨hk, ?_, ?_⟩
  · intro hpre
    obtain ⟨ts, hts⟩ := forall₂_of_forall_ok x _ hpre
    obtain ⟨rest, hrest⟩ := decode_calls_prefix x data schema
    obtain ⟨rest1, hrest1⟩ := itemLoop_calls_reach x _
      ({ Name := t1, Type_ := t0, Value := none } : SchemaItem V) (post.filterMap declOf) ts hts
      [] [] []
    rw [hrest, hdecl, hrest1, List.nil_append, List.append_assoc, List.cons_append,
      ← List.length_map (List.filterMap declOf pre) (fun f => (Call.newType f.Type_ : Call T V))]
    exact getElem?_append_length _ _ _
  · intro items hok
    obtain ⟨ts, values, _, _, hassign⟩ := decode_ok_inv x data schema items hok
    have hmap := assignValues_keeps_fields values _ items hassign
    have h1 : (items.map (fun it => (it.Name, it.Type_)))[(pre.filterMap
        (declOf : Str → Option (SchemaItem V))).length]? = some (t1, t0) := by
      rw [hmap, List.getElem?_map, hk]; rfl
    rw [List.getElem?_map] at h1
    cases hi : items[(pre.filterMap (declOf : Str → Option (SchemaItem V))).length]? with
    | none => rw [hi] at h1; simp at h1
    | some item =>
      rw [hi] at h1
      simp only [Option.map_some', Option.some.injEq, Prod.mk.injEq] at h1
      exact ⟨item, rfl, h1.2, h1.1⟩

/-- C4 at the schema `uint64 id,string comment`, whose second fragment is the
two-token fragment `string comment`. -/
theorem decode_two_token_fragment_witness :
    (declarations "uint64 id,string comment".data : List (SchemaItem Sample.Val))[1]? =
      some { Name := "comment".data, Type_ := "string".data, Value := none } ∧
    (decodeAttestationValues Sample.codec [7, 1, 120] "uint64 id,string comment".data).calls[1]?
      = some (.newType "string".data) :=
  have h := decode_two_token_fragment Sample.codec [7, 1, 120] "uint64 id,string comment".data
    ["uint64 id".data] "string comment".data [] "string".data "comment".data
    (by decide) (by decide)
  ⟨h.1, h.2.1 (by
    intro f hf
    have h1 : (List.filterMap declOf ["uint64 id".data] : List (SchemaItem Sample.Val)) =
        [{ Name := "id".data, Type_ := "uint64".data, Value := none }] := by decide
    rw [h1, List.mem_singleton] at hf
    subst hf
    exact ⟨.uint64, by decide⟩)⟩

/-- C5: a fragment with zero or one token is skipped by the loop: the run over the
fragments with it equals the run without it, from any loop state, so it adds no
item, no codec type, no call and no error; and decoding a schema gives the same
outcome and the same calls as decoding the schema rebuilt from its fragments that
have at least two tokens. -/
theorem decode_skips_short_fragments (x : Externals T V E) (data : Bytes) (schema : Str) :
    (∀ (pre : List Str) (d : Str) (post : List Str) (args : List T)
        (items : List (SchemaItem V)) (calls : List (Call T V)),
        (Fields (TrimSpace d)).length < 2 →
          decodeLoop x (pre ++ d :: post) args items calls =
            decodeLoop x (pre ++ post) args items calls) ∧
    decodeAttestationValues x data
        (Join ((Split schema ',').filter fun d => decide (2 ≤ (Fields (TrimSpace d)).length))
          [',']) =
      decodeAttestationValues x data schema := by
  constructor
  · intro pre d post args items calls hd
    have hnone : (declOf d : Option (SchemaItem V)) = none := (declOf_eq_none_iff d).2 hd
    rw [decodeLoop_eq_itemLoop, decodeLoop_eq_itemLoop, List.filterMap_append,
      List.filterMap_append, List.filterMap_cons_none hnone]
  · exact decode_congr x data _ _ (declarations_filter schema)

/-- C5 at the schema `x, string message,`: the fragments `x` and the empty one are
skipped, and the schema decodes like `string message`. -/
theorem decode_skips_short_fragments_witness :
    (Fields (TrimSpace "x".data)).length < 2 ∧
    decodeLoop Sample.codec ["x".data, " string message".data, []] [] [] [] =
      decodeLoop Sample.codec [" string message".data, []] [] [] [] ∧
    decodeAttestationValues Sample.codec [2, 104, 105] " string message".data =
      decodeAttestationValues Sample.codec [2, 104, 105] "x, string message,".data :=
  have h := decode_skips_short_fragments Sample.codec [2, 104, 105] "x, string message,".data
  ⟨by decide, h.1 [] "x".data [" string message".data, []] [] [] [] (by decide), h.2⟩

/-- C6: commas added at the end of a schema, at its start, or next to a comma
between two fields do not change what decoding returns nor the calls it makes;
in particular `string message,` decodes like `string message`. -/
theorem decode_ignores_extra_commas (x : Externals T V E) (data : Bytes) (s a b : Str)
    (n : Nat) :
    decodeAttestationValues x data (s ++ List.replicate n ',') =
      decodeAttestationValues x data s ∧
    decodeAttestationValues x data (List.replicate n ',' ++ s) =
      decodeAttestationValues x data s ∧
    decodeAttestationValues x data (a ++ List.replicate (n + 1) ',' ++ b) =
      decodeAttestationValues x data (a ++ ',' :: b) ∧
    decodeAttestationValues x data "string message,".data =
      decodeAttestationValues x data "string message".data := by
  refine ⟨decode_congr x data _ _ (declarations_trailing_commas n s),
    decode_congr x data _ _ (declarations_leading_commas n s), ?_, ?_⟩
  · apply decode_congr
    have h : a ++ List.replicate (n + 1) ',' ++ b = a ++ ',' :: (List.replicate n ',' ++ b) := by
      simp [List.replicate_succ]
    rw [h, declarations_append_sep, declarations_append_sep, declarations_leading_commas]
  · exact decode_congr x data _ _ (declarations_trailing_commas 1 "string message".data)

/-- C7: when decoding succeeds, the calls were one `abi.NewType` per parsed field, in
declaration order and on that field's type string, followed by one `Unpack` with
the types so built; and when `Unpack` returned one value per type, the result has
one item per parsed field, in declaration order, the `k`-th item being the `k`-th
parsed field with the `k`-th unpacked value as its `Value`. -/
theorem decode_zips_in_declaration_order (x : Externals T V E) (data : Bytes) (schema : Str)
    (items : List (SchemaItem V))
    (hok : (decodeAttestationValues x data schema).result = .ok items) :
    ∃ ts values,
      List.Forall₂ (fun f t => x.NewType f.Type_ = .ok t)
        (declarations schema : List (SchemaItem V)) ts ∧
      (decodeAttestationValues x data schema).calls =
        ((declarations schema : List (SchemaItem V)).map fun f => .newType f.Type_) ++
          [.unpack ts data] ∧
      x.Unpack ts data = .ok values ∧
      (values.length = ts.length →
        items.length = (declarations schema : List (SchemaItem V)).length ∧
        items = List.zipWith withValue (declarations schema) values ∧
        ∀ (k : Nat) (f : SchemaItem V) (v : V),
          (declarations schema : List (SchemaItem V))[k]? = some f → values[k]? = some v →
          items[k]? = some ({ Name := f.Name, Type_ := f.Type_, Value := some v } :
            SchemaItem V)) := by
  obtain ⟨ts, values, hts, hu, hassign⟩ := decode_ok_inv x data schema items hok
  refine ⟨ts, values, hts, ?_, hu, ?_⟩
  · rw [decode_unpack_ok x data schema ts values hts hu]
  · intro hlen
    have hl : values.length = (declarations schema : List (SchemaItem V)).length := by
      rw [hlen, hts.length_eq]
    have hz : items = List.zipWith withValue (declarations schema) values := by
      rw [assignValues_of_le values _ (le_of_eq hl)] at hassign
      simp only [Option.some.injEq] at hassign
      rw [← hassign, hl]
      simp
    refine ⟨?_, hz, ?_⟩
    · rw [hz]; simp [hl]
    · intro k f v hf hv
      rw [hz, List.getElem?_zipWith, hf, hv]
      rfl

/-- C7 at the schema `uint64 id, string comment` and the sample payload of `7` and
`"x"`. -/
theorem decode_zips_in_declaration_order_witness :
    ∃ ts values,
      List.Forall₂ (fun f t => Sample.codec.NewType f.Type_ = .ok t)
        (declarations "uint64 id, string comment".data : List (SchemaItem Sample.Val)) ts ∧
      (decodeAttestationValues Sample.codec [7, 1, 120] "uint64 id, string comment".data).calls =
        ((declarations "uint64 id, string comment".data : List (SchemaItem Sample.Val)).map
          fun f => .newType f.Type_) ++ [.unpack ts [7, 1, 120]] ∧
      Sample.codec.Unpack ts [7, 1, 120] = .ok values ∧
      (values.length = ts.length →
        ([{ Name := "id".data, Type_ := "uint64".data, Value := some (.num 7) },
          { Name := "comment".data, Type_ := "string".data, Value := some (.str "x".data) }] :
            List (SchemaItem Sample.Val)).length =
          (declarations "uint64 id, string comment".data : List (SchemaItem Sample.Val)).length ∧
        [{ Name := "id".data, Type_ := "uint64".data, Value := some (.num 7) },
          { Name := "comment".data, Type_ := "string".data, Value := some (.str "x".data) }] =
          List.zipWith withValue (declarations "uint64 id, string comment".data) values ∧
        ∀ (k : Nat) (f : SchemaItem Sample.Val) (v : Sample.Val),
          (declarations "uint64 id, string comment".data : List (SchemaItem Sample.Val))[k]? =
            some f → values[k]? = some v →
          ([{ Name := "id".data, Type_ := "uint64".data, Value := some (.num 7) },
            { Name := "comment".data, Type_ := "string".data,
              Value := some (.str "x".data) }] : List (SchemaItem Sample.Val))[k]? =
            some ({ Name := f.Name, Type_ := f.Type_, Value := some v } :
              SchemaItem Sample.Val)) :=
  decode_zips_in_declaration_order Sample.codec [7, 1, 120] "uint64 id, string comment".data
    [{ Name := "id".data, Type_ := "uint64".data, Value := some (.num 7) },
      { Name := "comment".data, Type_ := "string".data, Value := some (.str "x".data) }]
    (by decide)

/-- C8: when `abi.NewType` rejects the type string of some parsed field, decoding
returns, for any data, the error of the first rejected field in declaration order
and no items; its calls are the `abi.NewType` calls up to that field and nothing
else, so `Unpack` is not called. -/
theorem decode_invalid_type (x : Externals T V E) (data : Bytes) (schema : Str)
    (h : ∃ f ∈ (declarations schema : List (SchemaItem V)), ∃ e, x.NewType f.Type_ = .error e) :
    ∃ (pre : List (SchemaItem V)) (f : SchemaItem V) (post : List (SchemaItem V)) (e : E),
      declarations schema = pre ++ f :: post ∧
      (∀ g ∈ pre, ∃ t, x.NewType g.Type_ = .ok t) ∧
      x.NewType f.Type_ = .error e ∧
      decodeAttestationValues x data schema =
        ⟨.err (.ext e), (pre ++ [f]).map fun f => .newType f.Type_⟩ ∧
      ∀ ts d, Call.unpack ts d ∉ (decodeAttestationValues x data schema).calls := by
  rcases itemLoop_cases x (declarations schema : List (SchemaItem V)) with
    ⟨ts, hts⟩ | ⟨pre, f, post, ts, e, hd, hts, hf⟩
  · obtain ⟨f, hf, e, he⟩ := h
    obtain ⟨t, ht⟩ := forall_ok_of_forall₂ x _ ts hts f hf
    rw [ht] at he
    simp at he
  · have hrun := decode_newType_error x data schema pre f post ts e hd hts hf
    refine ⟨pre, f, post, e, hd, forall_ok_of_forall₂ x pre ts hts, hf, hrun, ?_⟩
    intro ts1 d hmem
    rw [hrun] at hmem
    simp at hmem

/-- C8 at the schema `uint64 id, float price, string comment`, whose second type
string the sample codec rejects. -/
theorem decode_invalid_type_witness :
    ∃ (pre : List (SchemaItem Sample.Val)) (f : SchemaItem Sample.Val)
      (post : List (SchemaItem Sample.Val)) (e : Sample.Err),
      declarations "uint64 id, float price, string comment".data = pre ++ f :: post ∧
      (∀ g ∈ pre, ∃ t, Sample.codec.NewType g.Type_ = .ok t) ∧
      Sample.codec.NewType f.Type_ = .error e ∧
      decodeAttestationValues Sample.codec [7, 1, 120]
          "uint64 id, float price, string comment".data =
        ⟨.err (.ext e), (pre ++ [f]).map fun f => .newType f.Type_⟩ ∧
      ∀ ts d, Call.unpack ts d ∉
        (decodeAttestationValues Sample.codec [7, 1, 120]
          "uint64 id, float price, string comment".data).calls :=
  decode_invalid_type Sample.codec [7, 1, 120] "uint64 id, float price, string comment".data
    ⟨{ Name := "price".data, Type_ := "float".data, Value := none }, by decide,
      .invalidType, by decide⟩

/-- C9, evaluated on the code: `decodeAttestationValues` compares no lengths, unlike
`scanAttestationValues`.  When every type string is accepted and `Unpack` succeeds
with `n` values for `m` parsed fields, then for `n ≤ m` decoding returns no error
and all `m` items, the first `n` carrying the unpacked values in order and the
others their nil `Value`; for `n > m` it panics, the access `items[m]` being out of
range; so when `n` differs from `m` it never returns an error. -/
theorem decode_without_count_check (x : Externals T V E) (data : Bytes) (schema : Str)
    (ts : List T) (values : List V)
    (hts : List.Forall₂ (fun f t => x.NewType f.Type_ = .ok t)
      (declarations schema : List (SchemaItem V)) ts)
    (hu : x.Unpack ts data = .ok values) :
    (values.length ≤ (declarations schema : List (SchemaItem V)).length →
      (decodeAttestationValues x data schema).result =
        .ok (List.zipWith withValue ((declarations schema).take values.length) values ++
          (declarations schema).drop values.length)) ∧
    ((declarations schema : List (SchemaItem V)).length < values.length →
      (decodeAttestationValues x data schema).result = .panic) ∧
    (values.length ≠ (declarations schema : List (SchemaItem V)).length →
      ∀ e, (decodeAttestationValues x data schema).result ≠ .err e) := by
  rw [decode_unpack_ok x data schema ts values hts hu]
  refine ⟨?_, ?_, ?_⟩
  · intro hle
    simp only [assignValues_of_le values _ hle]
  · intro hlt
    simp only [assignValues_of_lt values _ hlt]
  · intro _ e
    cases assignValues values 0 (declarations schema : List (SchemaItem V)) <;> simp

/-- C9, evaluated on the code, at the schema `uint64 id, string comment`: with an
`Unpack` that returns no value the two items are returned with nil values and no
error, and with an `Unpack` that returns one value more than the types the call
panics. -/
theorem decode_without_count_check_witness :
    (decodeAttestationValues Sample.emptyUnpack [7, 1, 120]
        "uint64 id, string comment".data).result =
      .ok [{ Name := "id".data, Type_ := "uint64".data, Value := none },
        { Name := "comment".data, Type_ := "string".data, Value := none }] ∧
    (decodeAttestationValues Sample.longUnpack [7, 1, 120]
        "uint64 id, string comment".data).result = .panic :=
  ⟨(decode_without_count_check Sample.emptyUnpack [7, 1, 120]
      "uint64 id, string comment".data [.uint64, .string] []
      (List.Forall₂.cons (by decide) (List.Forall₂.cons (by decide) List.Forall₂.nil))
      (by decide)).1 (by decide),
    (decode_without_count_check Sample.longUnpack [7, 1, 120]
      "uint64 id, string comment".data [.uint64, .string]
      [.num 7, .str "x".data, .num 0]
      (List.Forall₂.cons (by decide) (List.Forall₂.cons (by decide) List.Forall₂.nil))
      (by decide)).2.1 (by decide)⟩

/-! ## Lemmas on the encode and scan loops -/

theorem valueType_eq_some (x : Externals T V E) (v : V) (t : T) :
    valueType x v = some t ↔ ∃ s, x.getTypeString v = .ok s ∧ x.NewType s = .ok t := by
  unfold valueType
  cases hs : x.getTypeString v with
  | error e => simp
  | ok s =>
    cases ht : x.NewType s with
    | error e => simp [ht]
    | ok t1 => simp [ht]

theorem scanLoop_ok (x : Externals T V E) (h : Heap V) (args : List (Arg V)) (ts : List T)
    (hts : List.Forall₂ (fun a t => argType x h a = some t) args ts) (abiArgs : List T)
    (calls : List (Call T V)) :
    ∃ calls1, scanLoop x h args abiArgs calls = ⟨.ok (abiArgs ++ ts), calls ++ calls1⟩ := by
  induction hts generalizing abiArgs calls with
  | nil => exact ⟨[], by simp [scanLoop]⟩
  | @cons a t _ _ hat _ ih =>
    unfold argType at hat
    cases hv : indirect h a with
    | none => rw [hv] at hat; simp at hat
    | some v =>
      rw [hv] at hat
      simp only [Option.some_bind] at hat
      obtain ⟨s, hs, ht⟩ := (valueType_eq_some x v t).1 hat
      obtain ⟨calls1, hc⟩ := ih (abiArgs ++ [t]) (calls ++ [.getTypeString v, .newType s])
      refine ⟨[.getTypeString v, .newType s] ++ calls1, ?_⟩
      simp only [scanLoop, hv, hs, ht, hc]
      simp

theorem scan_of_types (x : Externals T V E) (h : Heap V) (data : Bytes) (args : List (Arg V))
    (ts : List T) (values : List V)
    (hts : List.Forall₂ (fun a t => argType x h a = some t) args ts)
    (hu : x.Unpack ts data = .ok values) :
    ∃ calls, scanAttestationValues x h data args =
      if args.length ≠ values.length then
        ⟨.err (.new "unable to unpack all fields".data), h, calls ++ [.unpack ts data]⟩
      else injectLoop x values args 0 h (calls ++ [.unpack ts data]) := by
  obtain ⟨calls1, hc⟩ := scanLoop_ok x h args ts hts [] []
  refine ⟨calls1, ?_⟩
  unfold scanAttestationValues
  rw [hc]
  simp only [List.nil_append, hu]

theorem injectLoop_result (x : Externals T V E) (values : List V) (args : List (Arg V))
    (i : Nat) (h : Heap V) (calls : List (Call T V)) (hlen : i + args.length ≤ values.length) :
    (injectLoop x values args i h calls).result = .ok () ∨
      ∃ e, (injectLoop x values args i h calls).result = .err (.ext e) := by
  induction args generalizing i h calls with
  | nil => exact Or.inl rfl
  | cons a args ih =>
    have hi : i < values.length := by simp at hlen; omega
    simp only [injectLoop, List.getElem?_eq_getElem hi]
    cases hj : x.Inject values[i] a h with
    | mk h1 oe =>
      cases oe with
      | some e => exact Or.inr ⟨e, rfl⟩
      | none => exact ih (i + 1) h1 _ (by simp at hlen ⊢; omega)

/-! ## The arity check of `scanAttestationValues` -/

/-- C10: when the type of every destination resolves and `Unpack` succeeds, a number
of unpacked values different from the number of destinations makes the scan return
the error `unable to unpack all fields`, memory left as it was; and with equal
numbers the scan returns nil or an error of `taint.Inject`, never an error made
by `errors.New`. -/
theorem scan_arity_mismatch (x : Externals T V E) (h : Heap V) (data : Bytes)
    (args : List (Arg V)) (ts : List T) (values : List V)
    (hts : List.Forall₂ (fun a t => argType x h a = some t) args ts)
    (hu : x.Unpack ts data = .ok values) :
    (args.length ≠ values.length →
      (scanAttestationValues x h data args).result =
          .err (.new "unable to unpack all fields".data) ∧
        (scanAttestationValues x h data args).heap = h) ∧
    (args.length = values.length →
      ((scanAttestationValues x h data args).result = .ok () ∨
        ∃ e, (scanAttestationValues x h data args).result = .err (.ext e)) ∧
      ∀ msg, (scanAttestationValues x h data args).result ≠ .err (.new msg)) := by
  obtain ⟨calls, hrun⟩ := scan_of_types x h data args ts values hts hu
  constructor
  · intro hne
    rw [hrun, if_pos hne]
    exact ⟨rfl, rfl⟩
  · intro heq
    rw [hrun, if_neg (not_not.2 heq)]
    have hres := injectLoop_result x values args 0 h (calls ++ [.unpack ts data])
      (by omega)
    refine ⟨hres, ?_⟩
    intro msg hmsg
    rcases hres with h1 | ⟨e, h1⟩
    · rw [h1] at hmsg; simp at hmsg
    · rw [h1] at hmsg; simp at hmsg

/-- C10 at one string destination and an `Unpack` that returns no value. -/
theorem scan_arity_mismatch_witness :
    (scanAttestationValues Sample.emptyUnpack (fun _ => .str []) [2, 104, 105]
        [.ptr 0]).result = .err (.new "unable to unpack all fields".data) ∧
      (scanAttestationValues Sample.emptyUnpack (fun _ => .str []) [2, 104, 105]
        [.ptr 0]).heap = (fun _ => .str []) :=
  (scan_arity_mismatch Sample.emptyUnpack (fun _ => .str []) [2, 104, 105] [.ptr 0]
    [.string] [] (List.Forall₂.cons (by decide) List.Forall₂.nil) (by decide)).1 (by decide)

/-! ## Lemmas on `strings.Fields` and `strings.TrimSpace` -/

theorem fieldsFrom_nil (cur : Str) : fieldsFrom cur [] = if cur = [] then [] else [cur] := by
  simp [fieldsFrom]

theorem fieldsFrom_spaces (cur : Str) (w : Str) (s : Str) (hne : w ≠ [])
    (hw : ∀ c ∈ w, isSpace c = true) :
    fieldsFrom cur (w ++ s) = (if cur = [] then [] else [cur]) ++ fieldsFrom [] s := by
  induction w generalizing cur with
  | nil => exact absurd rfl hne
  | cons c w ih =>
    have hc : isSpace c = true := hw c (by simp)
    cases w with
    | nil =>
      by_cases hcur : cur = [] <;> simp [fieldsFrom, hc, hcur]
    | cons c1 w1 =>
      have h1 := ih [] (by simp) (fun d hd => hw d (by simp [hd]))
      simp only [if_true, List.nil_append] at h1
      by_cases hcur : cur = []
      · simp only [List.cons_append, fieldsFrom, hc, hcur, if_true, List.nil_append]
        simpa using h1
      · simp only [List.cons_append, fieldsFrom, hc, hcur, if_true, if_false]
        simpa using h1

theorem fieldsFrom_append_spaces (cur p w q : Str) (hne : w ≠ [])
    (hw : ∀ c ∈ w, isSpace c = true) :
    fieldsFrom cur (p ++ w ++ q) = fieldsFrom cur p ++ fieldsFrom [] q := by
  induction p generalizing cur with
  | nil =>
    rw [List.nil_append, fieldsFrom_spaces cur w q hne hw, fieldsFrom_nil]
  | cons c p ih =>
    by_cases hc : isSpace c = true
    · by_cases hcur : cur = []
      · simp only [List.cons_append, List.append_assoc, fieldsFrom, hc, hcur, if_true]
        simpa using ih []
      · simp only [List.cons_append, List.append_assoc, fieldsFrom, hc, hcur, if_true,
          if_false]
        simpa using ih []
    · simp only [List.cons_append, List.append_assoc, fieldsFrom, hc]
      simpa using ih (cur ++ [c])

theorem fieldsFrom_trailing_spaces (cur p w : Str) (hw : ∀ c ∈ w, isSpace c = true) :
    fieldsFrom cur (p ++ w) = fieldsFrom cur p := by
  by_cases hne : w = []
  · simp [hne]
  · have h := fieldsFrom_append_spaces cur p w [] hne hw
    simpa [fieldsFrom] using h

theorem Fields_append_spaces (p w q : Str) (hne : w ≠ [])
    (hw : ∀ c ∈ w, isSpace c = true) : Fields (p ++ w ++ q) = Fields p ++ Fields q :=
  fieldsFrom_append_spaces [] p w q hne hw

theorem Fields_trailing_spaces (p w : Str) (hw : ∀ c ∈ w, isSpace c = true) :
    Fields (p ++ w) = Fields p :=
  fieldsFrom_trailing_spaces [] p w hw

theorem Fields_leading_spaces (w q : Str) (hw : ∀ c ∈ w, isSpace c = true) :
    Fields (w ++ q) = Fields q := by
  by_cases hne : w = []
  · simp [hne]
  · have h := fieldsFrom_spaces [] w q hne hw
    simpa [Fields] using h

theorem Fields_dropWhile (s : Str) : Fields (s.dropWhile isSpace) = Fields s := by
  have h := Fields_leading_spaces (s.takeWhile isSpace) (s.dropWhile isSpace)
    (fun c hc => List.mem_takeWhile_imp hc)
  rw [List.takeWhile_append_dropWhile] at h
  exact h.symm

theorem Fields_TrimSpace (s : Str) : Fields (TrimSpace s) = Fields s := by
  unfold TrimSpace
  have hsplit : (s.dropWhile isSpace) =
      ((s.dropWhile isSpace).reverse.dropWhile isSpace).reverse ++
        ((s.dropWhile isSpace).reverse.takeWhile isSpace).reverse := by
    rw [← List.reverse_append, List.takeWhile_append_dropWhile, List.reverse_reverse]
  have h := Fields_trailing_spaces
    ((s.dropWhile isSpace).reverse.dropWhile isSpace).reverse
    ((s.dropWhile isSpace).reverse.takeWhile isSpace).reverse
    (fun c hc => List.mem_takeWhile_imp (List.mem_reverse.1 hc))
  rw [← hsplit, Fields_dropWhile] at h
  exact h.symm

theorem declOf_eq (d : Str) : (declOf d : Option (SchemaItem V)) = declItem (Fields d) := by
  rw [declOf, Fields_TrimSpace]

/-! ## The fragment around a place in a schema -/

theorem isSpace_ne_comma (c : Char) (h : isSpace c = true) : c ≠ ',' := by
  intro hc
  subst hc
  revert h
  decide

theorem comma_not_mem_spaces (w : Str) (hw : ∀ c ∈ w, isSpace c = true) : ',' ∉ w :=
  fun hmem => isSpace_ne_comma ',' (hw ',' hmem) rfl

theorem exists_first_fragment (b : Str) :
    ∃ hb b0, b = hb ++ b0 ∧ ',' ∉ hb ∧ (b0 = [] ∨ ∃ b1, b0 = ',' :: b1) := by
  induction b with
  | nil => exact ⟨[], [], rfl, by simp, Or.inl rfl⟩
  | cons c b ih =>
    by_cases hc : c = ','
    · exact ⟨[], c :: b, rfl, by simp, Or.inr ⟨b, by rw [hc]⟩⟩
    · obtain ⟨hb, b0, hb1, hb2, hb3⟩ := ih
      refine ⟨c :: hb, b0, by simp [hb1], ?_, hb3⟩
      intro hmem
      rcases List.mem_cons.1 hmem with e | e
      · exact hc e.symm
      · exact hb2 e

theorem exists_last_fragment (a : Str) :
    ∃ a0 la, a = a0 ++ la ∧ ',' ∉ la ∧ (a0 = [] ∨ ∃ a1, a0 = a1 ++ [',']) := by
  obtain ⟨hb, b0, h1, h2, h3⟩ := exists_first_fragment a.reverse
  refine ⟨b0.reverse, hb.reverse, ?_, by simpa using h2, ?_⟩
  · rw [← List.reverse_append, ← h1, List.reverse_reverse]
  · rcases h3 with h3 | ⟨b1, h3⟩
    · exact Or.inl (by simp [h3])
    · exact Or.inr ⟨b1.reverse, by simp [h3]⟩

theorem declarations_of_not_mem (f : Str) (h : ',' ∉ f) :
    (declarations f : List (SchemaItem V)) = (declOf f).toList := by
  unfold declarations
  rw [Split_of_not_mem f ',' h]
  cases hd : (declOf f : Option (SchemaItem V)) with
  | none => rw [List.filterMap_cons_none hd]; rfl
  | some it => rw [List.filterMap_cons_some hd]; rfl

/-- The declarations of a schema around a comma-free text `m` put at some place in it:
those before the fragment holding `m`, that fragment, and those after it. -/
theorem declarations_middle (a b : Str) :
    ∃ (X Y : List (SchemaItem V)) (la hb : Str),
      (∀ m : Str, ',' ∉ m →
        (declarations (a ++ m ++ b) : List (SchemaItem V)) =
          X ++ (declOf (la ++ m ++ hb)).toList ++ Y) ∧
      ((a = [] ∨ ∃ a1, a = a1 ++ [',']) → la = []) ∧
      ((b = [] ∨ ∃ b1, b = ',' :: b1) → hb = []) := by
  obtain ⟨a0, la, ha, hla, ha0⟩ := exists_last_fragment a
  obtain ⟨hb, b0, hb1, hhb, hb0⟩ := exists_first_fragment b
  have hfrag : ∀ m : Str, ',' ∉ m → ',' ∉ la ++ m ++ hb := by
    intro m hm hmem
    simp only [List.mem_append] at hmem
    rcases hmem with (h | h) | h
    · exact hla h
    · exact hm h
    · exact hhb h
  have hla_nil : (a = [] ∨ ∃ a1, a = a1 ++ [',']) → la = [] := by
    intro h
    rcases h with h | ⟨a1, h⟩
    · rw [h] at ha
      exact (List.append_eq_nil.1 ha.symm).2
    · by_contra hne
      have hrev : a.reverse = la.reverse ++ a0.reverse := by rw [ha, List.reverse_append]
      rw [h, List.reverse_append] at hrev
      cases hl : la.reverse with
      | nil => exact hne (by simpa using hl)
      | cons c r =>
        rw [hl] at hrev
        simp only [List.reverse_cons, List.reverse_nil, List.nil_append, List.singleton_append,
          List.cons_append, List.cons.injEq] at hrev
        have hc : c ∈ la := by
          rw [← List.mem_reverse, hl]; simp
        rw [← hrev.1] at hc
        exact hla hc
  have hhb_nil : (b = [] ∨ ∃ b1, b = ',' :: b1) → hb = [] := by
    intro h
    rcases h with h | ⟨b1, h⟩
    · rw [h] at hb1
      exact (List.append_eq_nil.1 hb1.symm).1
    · cases hh : hb with
      | nil => rfl
      | cons c r =>
        rw [hh, h] at hb1
        simp only [List.cons_append, List.cons.injEq] at hb1
        exact absurd (by rw [hh, ← hb1.1]; simp) hhb
  rcases ha0 with ha0 | ⟨a1, ha0⟩ <;> rcases hb0 with hb0 | ⟨b1, hb0⟩
  · refine ⟨[], [], la, hb, ?_, hla_nil, hhb_nil⟩
    intro m hm
    rw [ha, hb1, ha0, hb0]
    simp only [List.nil_append, List.append_nil]
    exact declarations_of_not_mem _ (hfrag m hm)
  · refine ⟨[], declarations b1, la, hb, ?_, hla_nil, hhb_nil⟩
    intro m hm
    have e : a ++ m ++ b = (la ++ m ++ hb) ++ ',' :: b1 := by
      rw [ha, hb1, ha0, hb0]; simp
    rw [e, declarations_append_sep, declarations_of_not_mem _ (hfrag m hm)]
    simp
  · refine ⟨declarations a1, [], la, hb, ?_, hla_nil, hhb_nil⟩
    intro m hm
    have e : a ++ m ++ b = a1 ++ ',' :: (la ++ m ++ hb) := by
      rw [ha, hb1, ha0, hb0]; simp
    rw [e, declarations_append_sep, declarations_of_not_mem _ (hfrag m hm)]
    simp
  · refine ⟨declarations a1, declarations b1, la, hb, ?_, hla_nil, hhb_nil⟩
    intro m hm
    have e : a ++ m ++ b = a1 ++ ',' :: ((la ++ m ++ hb) ++ ',' :: b1) := by
      rw [ha, hb1, ha0, hb0]; simp
    rw [e, declarations_append_sep, declarations_append_sep,
      declarations_of_not_mem _ (hfrag m hm)]
    simp

/-! ## White space and commas in a schema -/

/-- C14: in a schema, a non-empty run of white space may be replaced by any other
non-empty run of white space, and white space may be added or removed at the start
of a fragment (at the start of the schema or right after a comma) and at the end of a
fragment (at the end of the schema or right before a comma): what decoding returns
and the calls it makes stay the same, for every data; in particular
`uint64   id ,string  comment` decodes like `uint64 id, string comment`. -/
theorem decode_ignores_whitespace_amount (x : Externals T V E) (data : Bytes)
    (a b w w1 : Str) (hw : ∀ c ∈ w, isSpace c = true) (hw1 : ∀ c ∈ w1, isSpace c = true) :
    (w ≠ [] → w1 ≠ [] →
      decodeAttestationValues x data (a ++ w ++ b) =
        decodeAttestationValues x data (a ++ w1 ++ b)) ∧
    ((a = [] ∨ ∃ a1, a = a1 ++ [',']) →
      decodeAttestationValues x data (a ++ w ++ b) = decodeAttestationValues x data (a ++ b)) ∧
    ((b = [] ∨ ∃ b1, b = ',' :: b1) →
      decodeAttestationValues x data (a ++ w ++ b) = decodeAttestationValues x data (a ++ b)) ∧
    decodeAttestationValues x data "uint64   id ,string  comment".data =
      decodeAttestationValues x data "uint64 id, string comment".data := by
  obtain ⟨X, Y, la, hb, hmid, hla, hhb⟩ := declarations_middle (V := V) a b
  have hcw := comma_not_mem_spaces w hw
  have hcw1 := comma_not_mem_spaces w1 hw1
  have hnil : (declarations (a ++ b) : List (SchemaItem V)) =
      X ++ (declOf (la ++ hb)).toList ++ Y := by
    have h := hmid [] (by simp)
    simpa using h
  refine ⟨?_, ?_, ?_, ?_⟩
  · intro hne hne1
    apply decode_congr
    rw [hmid w hcw, hmid w1 hcw1, declOf_eq, declOf_eq, Fields_append_spaces la w hb hne hw,
      Fields_append_spaces la w1 hb hne1 hw1]
  · intro ha
    apply decode_congr
    rw [hmid w hcw, hnil, hla ha, declOf_eq, declOf_eq]
    simp only [List.nil_append]
    rw [Fields_leading_spaces w hb hw]
  · intro hb0
    apply decode_congr
    rw [hmid w hcw, hnil, hhb hb0, declOf_eq, declOf_eq]
    simp only [List.append_nil]
    rw [Fields_trailing_spaces la w hw]
  · exact decode_congr x data _ _ rfl

/-- C14 at the schema `uint64 id,string comment`: the space between `uint64` and `id`
is replaced by a tab and a space, a space is added after the comma, and a space is
added at the end. -/
theorem decode_ignores_whitespace_amount_witness :
    decodeAttestationValues Sample.codec [7, 1, 120] "uint64 id,string comment".data =
      decodeAttestationValues Sample.codec [7, 1, 120] "uint64\t id,string comment".data ∧
    decodeAttestationValues Sample.codec [7, 1, 120] "uint64 id, string comment".data =
      decodeAttestationValues Sample.codec [7, 1, 120] "uint64 id,string comment".data ∧
    decodeAttestationValues Sample.codec [7, 1, 120] "uint64 id,string comment ".data =
      decodeAttestationValues Sample.codec [7, 1, 120] "uint64 id,string comment".data :=
  ⟨(decode_ignores_whitespace_amount Sample.codec [7, 1, 120] "uint64".data
      "id,string comment".data " ".data "\t ".data (by decide) (by decide)).1
      (by decide) (by decide),
    (decode_ignores_whitespace_amount Sample.codec [7, 1, 120] "uint64 id,".data
      "string comment".data " ".data [] (by decide) (by decide)).2.1
      (Or.inr ⟨"uint64 id".data, rfl⟩),
    (decode_ignores_whitespace_amount Sample.codec [7, 1, 120] "uint64 id,string comment".data
      [] " ".data [] (by decide) (by decide)).2.2.1 (Or.inl rfl)⟩

theorem mem_of_mem_fieldsFrom (cur s : Str) :
    ∀ t ∈ fieldsFrom cur s, ∀ c ∈ t, c ∈ cur ∨ c ∈ s := by
  induction s generalizing cur with
  | nil =>
    intro t ht c hc
    by_cases hcur : cur = []
    · simp [fieldsFrom, hcur] at ht
    · simp only [fieldsFrom, hcur, if_false, List.mem_singleton] at ht
      subst ht
      exact Or.inl hc
  | cons a s ih =>
    intro t ht c hc
    by_cases ha : isSpace a = true
    · by_cases hcur : cur = []
      · simp only [fieldsFrom, ha, hcur, if_true] at ht
        rcases ih [] t ht c hc with h | h
        · simp at h
        · exact Or.inr (by simp [h])
      · simp only [fieldsFrom, ha, hcur, if_true, if_false, List.mem_cons] at ht
        rcases ht with ht | ht
        · subst ht
          exact Or.inl hc
        · rcases ih [] t ht c hc with h | h
          · simp at h
          · exact Or.inr (by simp [h])
    · simp only [fieldsFrom, ha] at ht
      rcases ih (cur ++ [a]) t ht c hc with h | h
      · rcases List.mem_append.1 h with h | h
        · exact Or.inl h
        · exact Or.inr (by simp at h; simp [h])
      · exact Or.inr (by simp [h])

theorem mem_of_mem_Fields (s : Str) : ∀ t ∈ Fields s, ∀ c ∈ t, c ∈ s := by
  intro t ht c hc
  rcases mem_of_mem_fieldsFrom [] s t ht c hc with h | h
  · simp at h
  · exact h

theorem mem_of_mem_Join (parts : List Str) (sep : Str) :
    ∀ c ∈ Join parts sep, c ∈ sep ∨ ∃ p ∈ parts, c ∈ p := by
  induction parts with
  | nil => simp [Join]
  | cons p parts ih =>
    cases parts with
    | nil =>
      intro c hc
      exact Or.inr ⟨p, by simp, by simpa [Join] using hc⟩
    | cons q parts =>
      intro c hc
      have hj : Join (p :: q :: parts) sep = p ++ sep ++ Join (q :: parts) sep := by
        simp [Join]
      rw [hj] at hc
      rcases List.mem_append.1 hc with h | h
      · rcases List.mem_append.1 h with h | h
        · exact Or.inr ⟨p, by simp, h⟩
        · exact Or.inl h
      · rcases ih c h with h | ⟨r, hr, hcr⟩
        · exact Or.inl h
        · exact Or.inr ⟨r, List.mem_cons_of_mem _ hr, hcr⟩

theorem declItem_chars (parts : List Str) (it : SchemaItem V)
    (h : (declItem parts : Option (SchemaItem V)) = some it) :
    (∀ c ∈ it.Type_, c = ' ' ∨ ∃ p ∈ parts, c ∈ p) ∧ (∀ c ∈ it.Name, ∃ p ∈ parts, c ∈ p) := by
  match parts, h with
  | [], h => simp [declItem] at h
  | [_], h => simp [declItem] at h
  | [p0, p1], h =>
    simp only [declItem, Option.some.injEq] at h
    subst h
    exact ⟨fun c hc => Or.inr ⟨p0, by simp, hc⟩, fun c hc => ⟨p1, by simp, hc⟩⟩
  | p0 :: p1 :: p2 :: rest, h =>
    simp only [declItem, Option.some.injEq] at h
    subst h
    constructor
    · intro c hc
      rcases mem_of_mem_Join _ _ c hc with h1 | ⟨p, hp, hcp⟩
      · exact Or.inl (by simpa using h1)
      · exact Or.inr ⟨p, List.mem_of_mem_take hp, hcp⟩
    · intro c hc
      refine ⟨_, ?_, hc⟩
      rw [List.getD_eq_getElem _ _ (by simp)]
      exact List.getElem_mem _

theorem declarations_no_comma (schema : Str) :
    ∀ f ∈ (declarations schema : List (SchemaItem V)), ',' ∉ f.Type_ ∧ ',' ∉ f.Name := by
  intro f hf
  obtain ⟨d, hd, hdf⟩ := List.mem_filterMap.1 hf
  have hcomma := not_mem_of_mem_Split schema ',' d hd
  rw [declOf_eq] at hdf
  obtain ⟨hty, hname⟩ := declItem_chars (Fields d) f hdf
  constructor
  · intro hmem
    rcases hty ',' hmem with h | ⟨p, hp, hcp⟩
    · exact absurd h (by decide)
    · exact hcomma (mem_of_mem_Fields d p hp ',' hcp)
  · intro hmem
    obtain ⟨p, hp, hcp⟩ := hname ',' hmem
    exact hcomma (mem_of_mem_Fields d p hp ',' hcp)

theorem decode_newType_calls (x : Externals T V E) (data : Bytes) (schema : Str) (t : Str)
    (h : Call.newType t ∈ (decodeAttestationValues x data schema).calls) :
    ∃ f ∈ (declarations schema : List (SchemaItem V)), f.Type_ = t := by
  rcases itemLoop_cases x (declarations schema : List (SchemaItem V)) with
    ⟨ts, hts⟩ | ⟨pre, f, post, ts, e, hd, hts, hf⟩
  · cases hu : x.Unpack ts data with
    | error e =>
      rw [decode_unpack_error x data schema ts e hts hu] at h
      simp only [List.mem_append, List.mem_map, List.mem_singleton, Call.newType.injEq,
        reduceCtorEq, or_false] at h
      exact h
    | ok values =>
      rw [decode_unpack_ok x data schema ts values hts hu] at h
      simp only [List.mem_append, List.mem_map, List.mem_singleton, Call.newType.injEq,
        reduceCtorEq, or_false] at h
      exact h
  · rw [decode_newType_error x data schema pre f post ts e hd hts hf] at h
    simp only [List.mem_map, Call.newType.injEq] at h
    obtain ⟨g, hg, hgt⟩ := h
    refine ⟨g, ?_, hgt⟩
    rw [hd]
    rcases List.mem_append.1 hg with hg | hg
    · exact List.mem_append_left _ hg
    · exact List.mem_append_right _ (by simp at hg; simp [hg])

/-- C15: every comma of the schema separates fragments, whatever brackets surround
it: no parsed field has a comma in its type string or its name, no type string
handed to `abi.NewType` has one, and no decoded item has one; the declaration
`(uint64,string) pair` is split into `(uint64`, which is skipped, and `string) pair`,
parsed as the field `pair` of type `string)`. -/
theorem decode_split_not_nesting_aware (x : Externals T V E) (data : Bytes) (schema : Str) :
    (∀ f ∈ (declarations schema : List (SchemaItem V)), ',' ∉ f.Type_ ∧ ',' ∉ f.Name) ∧
    (∀ t, Call.newType t ∈ (decodeAttestationValues x data schema).calls → ',' ∉ t) ∧
    (∀ items, (decodeAttestationValues x data schema).result = .ok items →
      ∀ it ∈ items, ',' ∉ it.Type_ ∧ ',' ∉ it.Name) ∧
    Split "(uint64,string) pair".data ',' = ["(uint64".data, "string) pair".data] ∧
    (declOf "(uint64".data : Option (SchemaItem V)) = none ∧
    (declOf "string) pair".data : Option (SchemaItem V)) =
      some { Name := "pair".data, Type_ := "string)".data, Value := none } ∧
    (declarations "(uint64,string) pair".data : List (SchemaItem V)) =
      [{ Name := "pair".data, Type_ := "string)".data, Value := none }] := by
  refine ⟨declarations_no_comma schema, ?_, ?_, by decide, rfl, rfl, rfl⟩
  · intro t ht
    obtain ⟨f, hf, hft⟩ := decode_newType_calls x data schema t ht
    rw [← hft]
    exact (declarations_no_comma schema f hf).1
  · intro items hok it hit
    obtain ⟨ts, values, _, _, hassign⟩ := decode_ok_inv x data schema items hok
    have hmap := assignValues_keeps_fields values _ items hassign
    have hmem : (it.Name, it.Type_) ∈ items.map (fun i => (i.Name, i.Type_)) :=
      List.mem_map.2 ⟨it, hit, rfl⟩
    rw [hmap] at hmem
    obtain ⟨f, hf, hfe⟩ := List.mem_map.1 hmem
    simp only [Prod.mk.injEq] at hfe
    have h := declarations_no_comma schema f hf
    rw [hfe.1, hfe.2] at h
    exact ⟨h.1, h.2⟩

/-- C15 at the schema `(uint64,string) pair` and the sample codec: the only call is
`abi.NewType` on `string)`. -/
theorem decode_split_not_nesting_aware_witness :
    (decodeAttestationValues Sample.codec [3, 1, 120] "(uint64,string) pair".data).calls =
      [.newType "string)".data] ∧
    ',' ∉ "string)".data :=
  ⟨by decide,
    (decode_split_not_nesting_aware Sample.codec [3, 1, 120] "(uint64,string) pair".data).2.1
      "string)".data (by decide)⟩

/-! ## Type resolution in the encode and scan loops -/

theorem valueType_eq_some_iff (x : Externals T V E) (v : V) (t : T) :
    valueType x v = some t ↔ resolveType x v = .ok t := by
  unfold valueType resolveType
  cases x.getTypeString v with
  | error e => simp
  | ok s =>
    cases ht : x.NewType s with
    | error e => simp [ht]
    | ok t1 => simp [ht]

theorem argType_ptr_or_val (x : Externals T V E) (h : Heap V) (a : Arg V) (t : T)
    (ht : argType x h a = some t) :
    ∃ v, indirect h a = some v ∧ resolveType x v = .ok t := by
  unfold argType at ht
  cases hv : indirect h a with
  | none => rw [hv] at ht; simp at ht
  | some v =>
    rw [hv] at ht
    exact ⟨v, rfl, (valueType_eq_some_iff x v t).1 (by simpa using ht)⟩

theorem scanLoop_exact (x : Externals T V E) (h : Heap V) (args : List (Arg V)) (ts : List T)
    (hts : List.Forall₂ (fun a t => argType x h a = some t) args ts) (abiArgs : List T)
    (calls : List (Call T V)) :
    scanLoop x h args abiArgs calls =
      ⟨.ok (abiArgs ++ ts), calls ++ args.flatMap (argCalls x h)⟩ := by
  induction hts generalizing abiArgs calls with
  | nil => simp [scanLoop]
  | @cons a t _ _ hat _ ih =>
    obtain ⟨v, hv, hr⟩ := argType_ptr_or_val x h a t hat
    unfold resolveType at hr
    cases hs : x.getTypeString v with
    | error e => rw [hs] at hr; simp at hr
    | ok s =>
      rw [hs] at hr
      simp only at hr
      simp only [scanLoop, hv, hs, hr, ih, List.flatMap_cons, argCalls, resolveCalls]
      simp

theorem scanLoop_ok_inv (x : Externals T V E) (h : Heap V) (args : List (Arg V))
    (abiArgs : List T) (calls : List (Call T V)) (ts1 : List T)
    (hok : (scanLoop x h args abiArgs calls).result = .ok ts1) :
    ∃ ts, ts1 = abiArgs ++ ts ∧ List.Forall₂ (fun a t => argType x h a = some t) args ts := by
  induction args generalizing abiArgs calls with
  | nil =>
    simp only [scanLoop, Result.ok.injEq] at hok
    exact ⟨[], by simp [hok], List.Forall₂.nil⟩
  | cons a args ih =>
    cases hv : indirect h a with
    | none => simp [scanLoop, hv] at hok
    | some v =>
      cases hs : x.getTypeString v with
      | error e => simp [scanLoop, hv, hs] at hok
      | ok s =>
        cases ht : x.NewType s with
        | error e => simp [scanLoop, hv, hs, ht] at hok
        | ok t =>
          simp only [scanLoop, hv, hs, ht] at hok
          obtain ⟨ts, hts, hall⟩ := ih _ _ hok
          refine ⟨t :: ts, by simp [hts], List.Forall₂.cons ?_ hall⟩
          simp [argType, hv, valueType, hs, ht]

theorem scan_unfold (x : Externals T V E) (h : Heap V) (data : Bytes) (args : List (Arg V))
    (ts : List T) (hts : List.Forall₂ (fun a t => argType x h a = some t) args ts) :
    scanAttestationValues x h data args =
      (match x.Unpack ts data with
        | .error err =>
          ⟨.err (.ext err), h, args.flatMap (argCalls x h) ++ [.unpack ts data]⟩
        | .ok values =>
          if args.length ≠ values.length then
            ⟨.err (.new "unable to unpack all fields".data), h,
              args.flatMap (argCalls x h) ++ [.unpack ts data]⟩
          else
            injectLoop x values args 0 h (args.flatMap (argCalls x h) ++ [.unpack ts data])) := by
  unfold scanAttestationValues
  rw [scanLoop_exact x h args ts hts [] []]
  simp only [List.nil_append]

theorem scan_of_loop_not_ok (x : Externals T V E) (h : Heap V) (data : Bytes)
    (args : List (Arg V)) (hno : ∀ ts, (scanLoop x h args [] []).result ≠ .ok ts) :
    (scanAttestationValues x h data args).heap = h ∧
      (scanAttestationValues x h data args).result ≠ .ok () ∧
      (scanAttestationValues x h data args).calls = (scanLoop x h args [] []).calls := by
  unfold scanAttestationValues
  cases hl : scanLoop x h args [] [] with
  | mk r calls =>
    cases r with
    | ok ts => exact absurd (by rw [hl]) (hno ts)
    | err e => simp
    | panic => simp

theorem resolveCalls_no_inject (x : Externals T V E) (v : V) (w : V) (a : Arg V) :
    Call.inject w a ∉ resolveCalls x v := by
  unfold resolveCalls
  cases x.getTypeString v <;> simp

theorem argCalls_no_inject (x : Externals T V E) (h : Heap V) (args : List (Arg V)) (w : V)
    (a : Arg V) : Call.inject w a ∉ args.flatMap (argCalls x h) := by
  intro hmem
  obtain ⟨b, _, hb⟩ := List.mem_flatMap.1 hmem
  unfold argCalls at hb
  cases hv : indirect h b with
  | none => rw [hv] at hb; simp at hb
  | some v => rw [hv] at hb; exact resolveCalls_no_inject x v w a hb

/-! ## Failures of `Unpack` -/

/-- C11: when every type string of the schema is accepted and `Unpack` fails on the
data, decoding returns exactly the error of `Unpack` and no items, having called
`Unpack` once on the types built; and when the type of every destination resolves
and `Unpack` fails, the scan returns exactly the error of `Unpack`, memory left as
it was and nothing injected.  Neither run panics. -/
theorem unpack_error_is_returned (x : Externals T V E) (data : Bytes) :
    (∀ (schema : Str) (ts : List T) (e : E),
      List.Forall₂ (fun f t => x.NewType f.Type_ = .ok t)
        (declarations schema : List (SchemaItem V)) ts →
      x.Unpack ts data = .error e →
      decodeAttestationValues x data schema =
        ⟨.err (.ext e),
          ((declarations schema : List (SchemaItem V)).map fun f => .newType f.Type_) ++
            [.unpack ts data]⟩) ∧
    (∀ (h : Heap V) (args : List (Arg V)) (ts : List T) (e : E),
      List.Forall₂ (fun a t => argType x h a = some t) args ts →
      x.Unpack ts data = .error e →
      (scanAttestationValues x h data args).result = .err (.ext e) ∧
      (scanAttestationValues x h data args).heap = h ∧
      (scanAttestationValues x h data args).calls =
        args.flatMap (argCalls x h) ++ [.unpack ts data] ∧
      ∀ v a, Call.inject v a ∉ (scanAttestationValues x h data args).calls) := by
  constructor
  · intro schema ts e hts hu
    exact decode_unpack_error x data schema ts e hts hu
  · intro h args ts e hts hu
    rw [scan_unfold x h data args ts hts]
    simp only [hu, true_and]
    intro v a hmem
    rcases List.mem_append.1 hmem with hm | hm
    · exact argCalls_no_inject x h args v a hm
    · simp at hm

/-- C11 at a payload cut inside its string: the sample `Unpack` fails, and both the
decoding with the schema `string message` and the scan into one string cell return
its error. -/
theorem unpack_error_is_returned_witness :
    decodeAttestationValues Sample.codec [6, 72, 101] "string message".data =
      ⟨.err (.ext .decoding), [.newType "string".data, .unpack [.string] [6, 72, 101]]⟩ ∧
    (scanAttestationValues Sample.codec (fun _ => .str []) [6, 72, 101] [.ptr 0]).result =
      .err (.ext .decoding) :=
  have h := unpack_error_is_returned Sample.codec [6, 72, 101]
  ⟨h.1 "string message".data [.string] .decoding
      (List.Forall₂.cons (by decide) List.Forall₂.nil) (by decide),
    (h.2 (fun _ => .str []) [.ptr 0] [.string] .decoding
      (List.Forall₂.cons (by decide) List.Forall₂.nil) (by decide)).1⟩

/-! ## The encode loop -/

theorem encodeLoop_step_ok (x : Externals T V E) (v : V) (t : T) (rest : List V)
    (args : List T) (calls : List (Call T V)) (h : resolveType x v = .ok t) :
    encodeLoop x (v :: rest) args calls =
      encodeLoop x rest (args ++ [t]) (calls ++ resolveCalls x v) := by
  unfold resolveType at h
  cases hs : x.getTypeString v with
  | error e => rw [hs] at h; simp at h
  | ok s =>
    rw [hs] at h
    simp only at h
    simp only [encodeLoop, hs, h, resolveCalls]

theorem encodeLoop_step_error (x : Externals T V E) (v : V) (e : E) (rest : List V)
    (args : List T) (calls : List (Call T V)) (h : resolveType x v = .error e) :
    encodeLoop x (v :: rest) args calls = ⟨.error e, calls ++ resolveCalls x v⟩ := by
  unfold resolveType at h
  cases hs : x.getTypeString v with
  | error e1 =>
    rw [hs] at h
    simp only [Except.error.injEq] at h
    simp only [encodeLoop, hs, resolveCalls, h]
  | ok s =>
    rw [hs] at h
    simp only at h
    simp only [encodeLoop, hs, h, resolveCalls]

theorem encodeLoop_exact_ok (x : Externals T V E) (vs : List V) (ts : List T)
    (h : List.Forall₂ (fun v t => resolveType x v = .ok t) vs ts) (args : List T)
    (calls : List (Call T V)) :
    encodeLoop x vs args calls =
      ⟨.ok (args ++ ts), calls ++ vs.flatMap (resolveCalls x)⟩ := by
  induction h generalizing args calls with
  | nil => simp [encodeLoop]
  | cons hvt _ ih =>
    rw [encodeLoop_step_ok x _ _ _ _ _ hvt, ih]
    simp

theorem encodeLoop_exact_error (x : Externals T V E) (pre : List V) (v : V) (post : List V)
    (ts : List T) (e : E)
    (h : List.Forall₂ (fun v t => resolveType x v = .ok t) pre ts)
    (hv : resolveType x v = .error e) (args : List T) (calls : List (Call T V)) :
    encodeLoop x (pre ++ v :: post) args calls =
      ⟨.error e, calls ++ (pre ++ [v]).flatMap (resolveCalls x)⟩ := by
  induction h generalizing args calls with
  | nil =>
    rw [List.nil_append, encodeLoop_step_error x v e post args calls hv]
    simp
  | cons hvt _ ih =>
    rw [List.cons_append, encodeLoop_step_ok x _ _ _ _ _ hvt, ih]
    simp

theorem resolveType_cases (x : Externals T V E) (vs : List V) :
    (∃ ts, List.Forall₂ (fun v t => resolveType x v = .ok t) vs ts) ∨
    (∃ pre v post ts e, vs = pre ++ v :: post ∧
      List.Forall₂ (fun v t => resolveType x v = .ok t) pre ts ∧
      resolveType x v = .error e) := by
  induction vs with
  | nil => exact Or.inl ⟨[], List.Forall₂.nil⟩
  | cons v vs ih =>
    cases hv : resolveType x v with
    | error e => exact Or.inr ⟨[], v, vs, [], e, rfl, List.Forall₂.nil, hv⟩
    | ok t =>
      rcases ih with ⟨ts, hts⟩ | ⟨pre, u, post, ts, e, hvs, hts, hu⟩
      · exact Or.inl ⟨t :: ts, List.Forall₂.cons hv hts⟩
      · exact Or.inr ⟨v :: pre, u, post, t :: ts, e, by simp [hvs], List.Forall₂.cons hv hts, hu⟩

theorem resolveType_all_ok (x : Externals T V E) (vs : List V) (ts : List T)
    (h : List.Forall₂ (fun v t => resolveType x v = .ok t) vs ts) :
    ∀ v ∈ vs, ∃ t, resolveType x v = .ok t := by
  induction h with
  | nil => simp
  | cons hvt _ ih =>
    intro v hv
    rcases List.mem_cons.1 hv with rfl | hv
    · exact ⟨_, hvt⟩
    · exact ih v hv

theorem resolveCalls_no_pack (x : Externals T V E) (vs : List V) (ts : List T) (ws : List V) :
    Call.pack ts ws ∉ vs.flatMap (resolveCalls x) := by
  intro hmem
  obtain ⟨v, _, hv⟩ := List.mem_flatMap.1 hmem
  unfold resolveCalls at hv
  cases hs : x.getTypeString v with
  | error e => rw [hs] at hv; simp at hv
  | ok s => rw [hs] at hv; simp at hv

/-- C12: when the type resolution (`getTypeString`, then `abi.NewType`) fails for
some value, encoding returns no bytes and exactly the error of the first value, in
list order, whose resolution fails; the calls made are the resolution calls up to
that value and `Pack` is not called.  Otherwise `Pack` is called once, after the
resolution calls, with the types of the values in list order and the values as
given, and encoding returns exactly the bytes of `Pack`, or exactly its error and no
bytes. -/
theorem encode_resolves_in_order (x : Externals T V E) (values : List V) :
    ((∃ v ∈ values, ∃ e, resolveType x v = .error e) →
      ∃ (pre : List V) (v : V) (post : List V) (e : E),
        values = pre ++ v :: post ∧
        (∀ u ∈ pre, ∃ t, resolveType x u = .ok t) ∧
        resolveType x v = .error e ∧
        encodeAttestationValues x values =
          ⟨.err (.ext e), (pre ++ [v]).flatMap (resolveCalls x)⟩ ∧
        ∀ ts vs, Call.pack ts vs ∉ (encodeAttestationValues x values).calls) ∧
    ((∀ v ∈ values, ∃ t, resolveType x v = .ok t) →
      ∃ ts : List T,
        List.Forall₂ (fun v t => resolveType x v = .ok t) values ts ∧
        encodeAttestationValues x values =
          ⟨handOn (x.Pack ts values),
            values.flatMap (resolveCalls x) ++ [.pack ts values]⟩ ∧
        ∀ ts1 vs, Call.pack ts1 vs ∉ values.flatMap (resolveCalls x)) := by
  constructor
  · intro hfail
    rcases resolveType_cases x values with ⟨ts, hts⟩ | ⟨pre, v, post, ts, e, hvs, hts, hv⟩
    · obtain ⟨v, hv, e, he⟩ := hfail
      obtain ⟨t, ht⟩ := resolveType_all_ok x values ts hts v hv
      rw [ht] at he
      simp at he
    · have hrun : encodeAttestationValues x values =
          ⟨.err (.ext e), (pre ++ [v]).flatMap (resolveCalls x)⟩ := by
        unfold encodeAttestationValues
        rw [hvs, encodeLoop_exact_error x pre v post ts e hts hv]
        simp
      refine ⟨pre, v, post, e, hvs, resolveType_all_ok x pre ts hts, hv, hrun, ?_⟩
      intro ts1 vs
      rw [hrun]
      exact resolveCalls_no_pack x _ ts1 vs
  · intro hall
    rcases resolveType_cases x values with ⟨ts, hts⟩ | ⟨pre, v, post, ts, e, hvs, _, hv⟩
    · refine ⟨ts, hts, ?_, fun ts1 vs => resolveCalls_no_pack x values ts1 vs⟩
      unfold encodeAttestationValues
      rw [encodeLoop_exact_ok x values ts hts]
      simp only [List.nil_append]
      cases x.Pack ts values <;> rfl
    · obtain ⟨t, ht⟩ := hall v (by rw [hvs]; simp)
      rw [ht] at hv
      simp at hv

/-- C12 at the values `7` and `"x"`, which resolve and are packed, and at a list whose
second value is too large for `uint64`, where the error is that of `Pack`. -/
theorem encode_resolves_in_order_witness :
    (∃ ts : List Sample.Ty,
      List.Forall₂ (fun v t => resolveType Sample.codec v = .ok t)
        [Sample.Val.num 7, .str "x".data] ts ∧
      encodeAttestationValues Sample.codec [.num 7, .str "x".data] =
        ⟨handOn (Sample.codec.Pack ts [.num 7, .str "x".data]),
          [Sample.Val.num 7, .str "x".data].flatMap (resolveCalls Sample.codec) ++
            [.pack ts [.num 7, .str "x".data]]⟩ ∧
      ∀ ts1 vs, Call.pack ts1 vs ∉
        [Sample.Val.num 7, .str "x".data].flatMap (resolveCalls Sample.codec)) ∧
    encodeAttestationValues Sample.codec [.num 7, .str "x".data] =
      ⟨.ok [7, 1, 120],
        [.getTypeString (.num 7), .newType "uint64".data, .getTypeString (.str "x".data),
          .newType "string".data, .pack [.uint64, .string] [.num 7, .str "x".data]]⟩ ∧
    encodeAttestationValues Sample.codec [.str "x".data, .num (2 ^ 64)] =
      ⟨.err (.ext .encoding),
        [.getTypeString (.str "x".data), .newType "string".data,
          .getTypeString (.num (2 ^ 64)), .newType "uint64".data,
          .pack [.string, .uint64] [.str "x".data, .num (2 ^ 64)]]⟩ :=
  ⟨(encode_resolves_in_order Sample.codec [.num 7, .str "x".data]).2 (by
      intro v hv
      simp only [List.mem_cons, List.mem_singleton, List.not_mem_nil, or_false] at hv
      rcases hv with rfl | rfl
      · exact ⟨.uint64, by decide⟩
      · exact ⟨.string, by decide⟩),
    by decide, by decide⟩

/-! ## Index safety of the decode zip -/

theorem assignValues_eq_none_iff (values : List V) (items : List (SchemaItem V)) :
    assignValues values 0 items = none ↔ items.length < values.length := by
  constructor
  · intro h
    by_contra hle
    rw [assignValues_of_le values items (by omega)] at h
    simp at h
  · exact assignValues_of_lt values items

theorem Sample.Unpack_length (ts : List Sample.Ty) (data : Bytes) (vs : List Sample.Val)
    (h : Sample.Unpack ts data = .ok vs) : vs.length = ts.length := by
  induction ts generalizing data vs with
  | nil =>
    simp only [Sample.Unpack, Except.ok.injEq] at h
    rw [← h]
    rfl
  | cons t ts ih =>
    simp only [Sample.Unpack] at h
    cases h1 : Sample.unpackOne t data with
    | none => rw [h1] at h; simp at h
    | some p =>
      obtain ⟨v, rest⟩ := p
      rw [h1] at h
      simp only at h
      cases h2 : Sample.Unpack ts rest with
      | error e => rw [h2] at h; simp at h
      | ok ws =>
        rw [h2] at h
        simp only [Except.ok.injEq] at h
        rw [← h, List.length_cons, ih rest ws h2, List.length_cons]

/-- C16: the accesses `items[i]` of the loop over the unpacked values are all in range
exactly when there are at most as many values as items; with more values, the
accesses for the first `len(items)` values are in range and the next one, at index
`len(items)`, is not.  If `Unpack` returns one value per type whenever it succeeds,
decoding never panics, for any schema and data; and when `Unpack` returns more
values than fields were parsed, decoding panics. -/
theorem decode_index_safety (x : Externals T V E) :
    (∀ (values : List V) (items : List (SchemaItem V)),
      (assignValues values 0 items).isSome = true ↔ values.length ≤ items.length) ∧
    (∀ (values : List V) (items : List (SchemaItem V)), items.length < values.length →
      (assignValues (values.take items.length) 0 items).isSome = true ∧
      assignValues (values.take (items.length + 1)) 0 items = none) ∧
    ((∀ ts d vs, x.Unpack ts d = .ok vs → vs.length = ts.length) →
      ∀ (data : Bytes) (schema : Str),
        (decodeAttestationValues x data schema).result ≠ .panic) ∧
    (∀ (data : Bytes) (schema : Str) (ts : List T) (values : List V),
      List.Forall₂ (fun f t => x.NewType f.Type_ = .ok t)
        (declarations schema : List (SchemaItem V)) ts →
      x.Unpack ts data = .ok values →
      (declarations schema : List (SchemaItem V)).length < values.length →
      (decodeAttestationValues x data schema).result = .panic) := by
  refine ⟨?_, ?_, ?_, ?_⟩
  · intro values items
    constructor
    · intro h
      by_contra hlt
      rw [assignValues_of_lt values items (by omega)] at h
      simp at h
    · intro h
      rw [assignValues_of_le values items h]
      rfl
  · intro values items hlt
    constructor
    · rw [assignValues_of_le _ items (by simp)]
      rfl
    · apply assignValues_of_lt
      rw [List.length_take]
      omega
  · intro hlen data schema
    rcases itemLoop_cases x (declarations schema : List (SchemaItem V)) with
      ⟨ts, hts⟩ | ⟨pre, f, post, ts, e, hd, hts, hf⟩
    · cases hu : x.Unpack ts data with
      | error e =>
        rw [decode_unpack_error x data schema ts e hts hu]
        simp
      | ok values =>
        rw [decode_unpack_ok x data schema ts values hts hu]
        have hl : values.length ≤ (declarations schema : List (SchemaItem V)).length := by
          rw [hlen ts data values hu, hts.length_eq]
        simp only [assignValues_of_le values _ hl]
        simp
    · rw [decode_newType_error x data schema pre f post ts e hd hts hf]
      simp
  · intro data schema ts values hts hu hlt
    rw [decode_unpack_ok x data schema ts values hts hu]
    simp only [assignValues_of_lt values _ hlt]

/-- C16 at the sample codec, whose `Unpack` returns one value per type, and at the
codec whose `Unpack` returns one value more: the first never panics, the second
panics on the schema `string message`. -/
theorem decode_index_safety_witness :
    (∀ (data : Bytes) (schema : Str),
      (decodeAttestationValues Sample.codec data schema).result ≠ .panic) ∧
    (decodeAttestationValues Sample.longUnpack [1, 120] "string message".data).result =
      .panic :=
  ⟨(decode_index_safety Sample.codec).2.2.1 Sample.Unpack_length,
    (decode_index_safety Sample.longUnpack).2.2.2 [1, 120] "string message".data [.string]
      [.str "x".data, .num 0] (List.Forall₂.cons (by decide) List.Forall₂.nil) (by decide)
      (by decide)⟩

/-! ## The injection loop -/

theorem heapAfter_cons (x : Externals T V E) (p : V × Arg V) (rest : List (V × Arg V))
    (h : Heap V) : heapAfter x (p :: rest) h = heapAfter x rest (x.Inject p.1 p.2 h).1 := rfl

theorem injectLoop_cons_none (x : Externals T V E) (values : List V) (a : Arg V)
    (args : List (Arg V)) (i : Nat) (h h1 : Heap V) (calls : List (Call T V)) (v : V)
    (hv : values[i]? = some v) (hj : x.Inject v a h = (h1, none)) :
    injectLoop x values (a :: args) i h calls =
      injectLoop x values args (i + 1) h1 (calls ++ [.inject v a]) := by
  rw [injectLoop]
  simp only [hv, hj]

theorem injectLoop_cons_some (x : Externals T V E) (values : List V) (a : Arg V)
    (args : List (Arg V)) (i : Nat) (h h1 : Heap V) (calls : List (Call T V)) (v : V) (e : E)
    (hv : values[i]? = some v) (hj : x.Inject v a h = (h1, some e)) :
    injectLoop x values (a :: args) i h calls =
      ⟨.err (.ext e), h1, calls ++ [.inject v a]⟩ := by
  rw [injectLoop]
  simp only [hv, hj]

theorem injectLoop_cons_panic (x : Externals T V E) (values : List V) (a : Arg V)
    (args : List (Arg V)) (i : Nat) (h : Heap V) (calls : List (Call T V))
    (hv : values[i]? = none) :
    injectLoop x values (a :: args) i h calls = ⟨.panic, h, calls⟩ := by
  rw [injectLoop]
  simp only [hv]

theorem injectLoop_ok_run (x : Externals T V E) (args : List (Arg V)) (vs done : List V)
    (h : Heap V) (calls : List (Call T V)) (hlen : args.length ≤ vs.length)
    (hok : injectsOk x (vs.zip args) h = true) :
    injectLoop x (done ++ vs) args done.length h calls =
      ⟨.ok (), heapAfter x (vs.zip args) h,
        calls ++ (vs.zip args).map fun p => .inject p.1 p.2⟩ := by
  induction args generalizing vs done h calls with
  | nil => simp [injectLoop, heapAfter]
  | cons a args ih =>
    cases vs with
    | nil => simp at hlen
    | cons v vs =>
      have hget : (done ++ v :: vs)[done.length]? = some v := getElem?_append_length _ _ _
      have e1 : done ++ v :: vs = (done ++ [v]) ++ vs := by simp
      have e2 : done.length + 1 = (done ++ [v]).length := by simp
      rw [List.zip_cons_cons, injectsOk] at hok
      cases hj : x.Inject v a h with
      | mk h1 oe =>
        rw [hj] at hok
        cases oe with
        | some e => simp at hok
        | none =>
          simp only at hok
          have step := injectLoop_cons_none x (done ++ v :: vs) a args done.length h h1 calls
            v hget hj
          have hih := ih vs (done ++ [v]) h1 (calls ++ [Call.inject v a])
            (by simpa using hlen) hok
          rw [← e1, ← e2] at hih
          rw [step, hih, List.zip_cons_cons, heapAfter_cons, hj]
          simp

theorem injectLoop_fail_run (x : Externals T V E) (apre : List (Arg V)) (a : Arg V)
    (apost : List (Arg V)) (vpre : List V) (v : V) (vpost done : List V) (h hk : Heap V)
    (e : E) (calls : List (Call T V)) (hlen : apre.length = vpre.length)
    (hok : injectsOk x (vpre.zip apre) h = true)
    (hfail : x.Inject v a (heapAfter x (vpre.zip apre) h) = (hk, some e)) :
    injectLoop x (done ++ (vpre ++ v :: vpost)) (apre ++ a :: apost) done.length h calls =
      ⟨.err (.ext e), hk,
        calls ++ ((vpre.zip apre).map fun p => .inject p.1 p.2) ++ [.inject v a]⟩ := by
  induction apre generalizing vpre done h calls with
  | nil =>
    cases vpre with
    | cons w ws => simp at hlen
    | nil =>
      have hget : (done ++ v :: vpost)[done.length]? = some v :=
        getElem?_append_length _ _ _
      have hfail1 : x.Inject v a h = (hk, some e) := hfail
      have step := injectLoop_cons_some x (done ++ v :: vpost) a apost done.length h hk calls
        v e hget hfail1
      simp only [List.nil_append]
      rw [step]
      simp
  | cons b apre ih =>
    cases vpre with
    | nil => simp at hlen
    | cons w ws =>
      have hget : (done ++ w :: (ws ++ v :: vpost))[done.length]? = some w :=
        getElem?_append_length _ _ _
      have e1 : done ++ w :: (ws ++ v :: vpost) = (done ++ [w]) ++ (ws ++ v :: vpost) := by
        simp
      have e2 : done.length + 1 = (done ++ [w]).length := by simp
      rw [List.zip_cons_cons, injectsOk] at hok
      rw [List.zip_cons_cons, heapAfter_cons] at hfail
      cases hj : x.Inject w b h with
      | mk h1 oe =>
        rw [hj] at hok hfail
        cases oe with
        | some e1 => simp at hok
        | none =>
          simp only at hok hfail
          have step := injectLoop_cons_none x (done ++ w :: (ws ++ v :: vpost)) b
            (apre ++ a :: apost) done.length h h1 calls w hget hj
          have hih := ih ws (done ++ [w]) h1 (calls ++ [Call.inject w b])
            (by simpa using hlen) hok hfail
          rw [← e1, ← e2] at hih
          simp only [List.cons_append]
          rw [step, hih, List.zip_cons_cons]
          simp

theorem injectLoop_ok_inv (x : Externals T V E) (args : List (Arg V)) (vs done : List V)
    (h : Heap V) (calls : List (Call T V))
    (hres : (injectLoop x (done ++ vs) args done.length h calls).result = .ok ()) :
    args.length ≤ vs.length ∧ injectsOk x (vs.zip args) h = true := by
  induction args generalizing vs done h calls with
  | nil => simp [injectsOk]
  | cons a args ih =>
    cases vs with
    | nil =>
      have hget : (done ++ ([] : List V))[done.length]? = none := by simp
      rw [injectLoop_cons_panic x _ a args _ h calls hget] at hres
      simp at hres
    | cons v vs =>
      have hget : (done ++ v :: vs)[done.length]? = some v := getElem?_append_length _ _ _
      have e1 : done ++ v :: vs = (done ++ [v]) ++ vs := by simp
      have e2 : done.length + 1 = (done ++ [v]).length := by simp
      cases hj : x.Inject v a h with
      | mk h1 oe =>
        cases oe with
        | some e =>
          rw [injectLoop_cons_some x _ a args _ h h1 calls v e hget hj] at hres
          simp at hres
        | none =>
          rw [injectLoop_cons_none x (done ++ v :: vs) a args done.length h h1 calls v hget hj,
            e1, e2] at hres
          have hstep := ih vs (done ++ [v]) h1 (calls ++ [Call.inject v a]) hres
          refine ⟨by simpa using hstep.1, ?_⟩
          rw [List.zip_cons_cons, injectsOk, hj]
          exact hstep.2

theorem injectLoop_calls (x : Externals T V E) (values : List V) (args : List (Arg V))
    (i : Nat) (h : Heap V) (calls : List (Call T V)) :
    ∀ c ∈ (injectLoop x values args i h calls).calls, c ∈ calls ∨ ∃ v a, c = .inject v a := by
  induction args generalizing i h calls with
  | nil => intro c hc; exact Or.inl hc
  | cons a args ih =>
    intro c hc
    simp only [injectLoop] at hc
    cases hv : values[i]? with
    | none => rw [hv] at hc; exact Or.inl hc
    | some v =>
      rw [hv] at hc
      simp only at hc
      cases hj : x.Inject v a h with
      | mk h1 oe =>
        rw [hj] at hc
        cases oe with
        | some e =>
          simp only [List.mem_append, List.mem_singleton] at hc
          rcases hc with hc | hc
          · exact Or.inl hc
          · exact Or.inr ⟨v, a, hc⟩
        | none =>
          simp only at hc
          rcases ih (i + 1) h1 _ c hc with h2 | h2
          · simp only [List.mem_append, List.mem_singleton] at h2
            rcases h2 with h2 | h2
            · exact Or.inl h2
            · exact Or.inr ⟨v, a, h2⟩
          · exact Or.inr h2

theorem scanLoop_calls (x : Externals T V E) (h : Heap V) (args : List (Arg V))
    (abiArgs : List T) (calls : List (Call T V)) :
    ∀ c ∈ (scanLoop x h args abiArgs calls).calls,
      c ∈ calls ∨ (∃ v, c = .getTypeString v) ∨ ∃ s, c = .newType s := by
  induction args generalizing abiArgs calls with
  | nil => intro c hc; exact Or.inl hc
  | cons a args ih =>
    intro c hc
    simp only [scanLoop] at hc
    cases hv : indirect h a with
    | none => rw [hv] at hc; exact Or.inl hc
    | some v =>
      rw [hv] at hc
      simp only at hc
      cases hs : x.getTypeString v with
      | error e =>
        rw [hs] at hc
        simp only [List.mem_append, List.mem_singleton] at hc
        rcases hc with hc | hc
        · exact Or.inl hc
        · exact Or.inr (Or.inl ⟨v, hc⟩)
      | ok s =>
        rw [hs] at hc
        simp only at hc
        have hnew : ∀ d, d ∈ calls ++ [Call.getTypeString v, Call.newType s] →
            d ∈ calls ∨ (∃ v, d = Call.getTypeString v) ∨ ∃ s, d = Call.newType s := by
          intro d hd
          simp only [List.mem_append, List.mem_cons, List.mem_singleton, List.not_mem_nil,
            or_false] at hd
          rcases hd with hd | hd | hd
          · exact Or.inl hd
          · exact Or.inr (Or.inl ⟨v, hd⟩)
          · exact Or.inr (Or.inr ⟨s, hd⟩)
        cases ht : x.NewType s with
        | error e =>
          rw [ht] at hc
          exact hnew c hc
        | ok t =>
          rw [ht] at hc
          simp only at hc
          rcases ih _ _ c hc with h2 | h2
          · exact hnew c h2
          · exact Or.inr h2

theorem exists_of_forall₂_mem {α β : Type} {R : α → β → Prop} {l1 : List α} {l2 : List β}
    (h : List.Forall₂ R l1 l2) : ∀ a ∈ l1, ∃ b, R a b := by
  induction h with
  | nil => simp
  | cons hab _ ih =>
    intro a ha
    rcases List.mem_cons.1 ha with rfl | ha
    · exact ⟨_, hab⟩
    · exact ih a ha

/-! ## The properties of `scanAttestationValues` -/

theorem scan_loop_failed (x : Externals T V E) (h : Heap V) (args : List (Arg V))
    (hfail : ∃ a ∈ args, argType x h a = none) :
    ∀ ts, (scanLoop x h args [] []).result ≠ .ok ts := by
  intro ts1 hok
  obtain ⟨ts, _, hts⟩ := scanLoop_ok_inv x h args [] [] ts1 hok
  obtain ⟨a, ha, hnone⟩ := hfail
  obtain ⟨t, ht⟩ := exists_of_forall₂_mem hts a ha
  rw [hnone] at ht
  simp at ht

theorem argCalls_kinds (x : Externals T V E) (h : Heap V) (args : List (Arg V)) :
    ∀ c ∈ args.flatMap (argCalls x h), (∃ v, c = .getTypeString v) ∨ ∃ s, c = .newType s := by
  intro c hc
  obtain ⟨a, _, ha⟩ := List.mem_flatMap.1 hc
  unfold argCalls at ha
  cases hv : indirect h a with
  | none => rw [hv] at ha; simp at ha
  | some v =>
    rw [hv] at ha
    cases hs : x.getTypeString v with
    | error e =>
      simp only [resolveCalls, hs, List.mem_singleton] at ha
      exact Or.inl ⟨v, ha⟩
    | ok s =>
      simp only [resolveCalls, hs, List.mem_cons, List.mem_singleton, List.not_mem_nil,
        or_false] at ha
      rcases ha with ha | ha
      · exact Or.inl ⟨v, ha⟩
      · exact Or.inr ⟨s, ha⟩

theorem scan_unpack_call (x : Externals T V E) (h : Heap V) (data : Bytes)
    (args : List (Arg V)) (ts : List T)
    (hts : List.Forall₂ (fun a t => argType x h a = some t) args ts) (ts1 : List T)
    (d : Bytes) (hmem : Call.unpack ts1 d ∈ (scanAttestationValues x h data args).calls) :
    ts1 = ts ∧ d = data := by
  have hbase : Call.unpack ts1 d ∈ args.flatMap (argCalls x h) ++ [Call.unpack ts data] →
      ts1 = ts ∧ d = data := by
    intro hm
    rcases List.mem_append.1 hm with hm | hm
    · rcases argCalls_kinds x h args _ hm with ⟨v, hv⟩ | ⟨s, hs⟩
      · simp at hv
      · simp at hs
    · simpa using hm
  rw [scan_unfold x h data args ts hts] at hmem
  cases hu : x.Unpack ts data with
  | error e =>
    rw [hu] at hmem
    exact hbase hmem
  | ok values =>
    rw [hu] at hmem
    simp only at hmem
    by_cases hlen : args.length ≠ values.length
    · rw [if_pos hlen] at hmem
      exact hbase hmem
    · rw [if_neg hlen] at hmem
      rcases injectLoop_calls x values args 0 h _ _ hmem with hm | ⟨v, a, hva⟩
      · exact hbase hm
      · simp at hva

theorem scan_ok_inv (x : Externals T V E) (h : Heap V) (data : Bytes) (args : List (Arg V))
    (hok : (scanAttestationValues x h data args).result = .ok ()) :
    ∃ ts values,
      List.Forall₂ (fun a t => argType x h a = some t) args ts ∧
      x.Unpack ts data = .ok values ∧
      values.length = args.length ∧
      injectsOk x (values.zip args) h = true ∧
      scanAttestationValues x h data args =
        ⟨.ok (), heapAfter x (values.zip args) h,
          args.flatMap (argCalls x h) ++ [.unpack ts data] ++
            (values.zip args).map fun p => .inject p.1 p.2⟩ := by
  by_cases hex : ∃ ts1, (scanLoop x h args [] []).result = .ok ts1
  · obtain ⟨ts1, hts1⟩ := hex
    obtain ⟨ts, _, hts⟩ := scanLoop_ok_inv x h args [] [] ts1 hts1
    rw [scan_unfold x h data args ts hts] at hok ⊢
    cases hu : x.Unpack ts data with
    | error e => rw [hu] at hok; simp at hok
    | ok values =>
      rw [hu] at hok
      simp only at hok ⊢
      by_cases hlen : args.length ≠ values.length
      · rw [if_pos hlen] at hok
        simp at hok
      · rw [if_neg hlen] at hok ⊢
        have hinv := injectLoop_ok_inv x args values [] h _ hok
        have hrun := injectLoop_ok_run x args values [] h
          (args.flatMap (argCalls x h) ++ [Call.unpack ts data]) hinv.1 hinv.2
        simp only [List.nil_append, List.length_nil] at hrun
        exact ⟨ts, values, hts, hu, (not_not.1 hlen).symm, hinv.2, hrun⟩
  · have hno : ∀ ts, (scanLoop x h args [] []).result ≠ .ok ts :=
      fun ts hts => hex ⟨ts, hts⟩
    exact absurd hok (scan_of_loop_not_ok x h data args hno).2.1

/-- C13: whenever the scan calls `Unpack`, it passes the data and the list of the
types resolved for the destinations, in destination order, each from what the
destination points to in the memory the scan started on.  When the scan returns nil,
`Unpack` returned one value per destination, the injections made are exactly one per
position, in order, of the value at that position into the destination at that
position, and the memory left is the one these injections leave. -/
theorem scan_projects_positionally (x : Externals T V E) (h : Heap V) (data : Bytes)
    (args : List (Arg V)) :
    (∀ (ts : List T) (d : Bytes),
      Call.unpack ts d ∈ (scanAttestationValues x h data args).calls →
        d = data ∧ List.Forall₂ (fun a t => argType x h a = some t) args ts) ∧
    ((scanAttestationValues x h data args).result = .ok () →
      ∃ (ts : List T) (values : List V),
        List.Forall₂ (fun a t => argType x h a = some t) args ts ∧
        x.Unpack ts data = .ok values ∧
        values.length = args.length ∧
        (scanAttestationValues x h data args).calls =
          args.flatMap (argCalls x h) ++ [.unpack ts data] ++
            (values.zip args).map (fun p => .inject p.1 p.2) ∧
        (∀ v a, Call.inject v a ∉ args.flatMap (argCalls x h)) ∧
        (scanAttestationValues x h data args).heap = heapAfter x (values.zip args) h) := by
  constructor
  · intro ts1 d hmem
    by_cases hex : ∃ ts0, (scanLoop x h args [] []).result = .ok ts0
    · obtain ⟨ts0, hts0⟩ := hex
      obtain ⟨ts, _, hts⟩ := scanLoop_ok_inv x h args [] [] ts0 hts0
      obtain ⟨e1, e2⟩ := scan_unpack_call x h data args ts hts ts1 d hmem
      rw [e1]
      exact ⟨e2, hts⟩
    · have hno : ∀ ts, (scanLoop x h args [] []).result ≠ .ok ts :=
        fun ts hts => hex ⟨ts, hts⟩
      rw [(scan_of_loop_not_ok x h data args hno).2.2] at hmem
      rcases scanLoop_calls x h args [] [] _ hmem with hm | ⟨v, hv⟩ | ⟨s, hs⟩
      · simp at hm
      · simp at hv
      · simp at hs
  · intro hok
    obtain ⟨ts, values, hts, hu, hlen, _, hrun⟩ := scan_ok_inv x h data args hok
    refine ⟨ts, values, hts, hu, hlen, ?_, fun v a => argCalls_no_inject x h args v a, ?_⟩
    · rw [hrun]
    · rw [hrun]

/-- C13 at two cells, a struct and a string, scanned from the sample payload of
`(3, "k1")` and `"one"`. -/
theorem scan_projects_positionally_witness :
    ∃ (ts : List Sample.Ty) (values : List Sample.Val),
      List.Forall₂ (fun a t =>
        argType Sample.codec (fun a => if a = 0 then .pair 0 [] else .str []) a = some t)
        [.ptr 0, .ptr 1] ts ∧
      Sample.codec.Unpack ts [3, 2, 107, 49, 3, 111, 110, 101] = .ok values ∧
      values.length = [Arg.ptr 0, Arg.ptr 1 (V := Sample.Val)].length ∧
      (scanAttestationValues Sample.codec (fun a => if a = 0 then .pair 0 [] else .str [])
          [3, 2, 107, 49, 3, 111, 110, 101] [.ptr 0, .ptr 1]).calls =
        [Arg.ptr 0, Arg.ptr 1].flatMap
            (argCalls Sample.codec (fun a => if a = 0 then .pair 0 [] else .str [])) ++
          [.unpack ts [3, 2, 107, 49, 3, 111, 110, 101]] ++
          (values.zip [.ptr 0, .ptr 1]).map (fun p => .inject p.1 p.2) ∧
      (∀ v a, Call.inject v a ∉ [Arg.ptr 0, Arg.ptr 1].flatMap
        (argCalls Sample.codec (fun a => if a = 0 then .pair 0 [] else .str []))) ∧
      (scanAttestationValues Sample.codec (fun a => if a = 0 then .pair 0 [] else .str [])
          [3, 2, 107, 49, 3, 111, 110, 101] [.ptr 0, .ptr 1]).heap =
        heapAfter Sample.codec (values.zip [.ptr 0, .ptr 1])
          (fun a => if a = 0 then .pair 0 [] else .str []) :=
  (scan_projects_positionally Sample.codec (fun a => if a = 0 then .pair 0 [] else .str [])
    [3, 2, 107, 49, 3, 111, 110, 101] [.ptr 0, .ptr 1]).2 (by decide)

/-- C17: the scan leaves memory as it found it, and injects nothing, whenever a
pre-check fails: when the type of some destination does not resolve (the argument
is nil, `getTypeString` fails or `abi.NewType` fails), when `Unpack` fails, and when
`Unpack` returns a number of values other than the number of destinations. -/
theorem scan_writes_nothing_on_failed_check (x : Externals T V E) (h : Heap V) (data : Bytes)
    (args : List (Arg V)) :
    ((∃ a ∈ args, argType x h a = none) →
      (scanAttestationValues x h data args).heap = h ∧
      (scanAttestationValues x h data args).result ≠ .ok () ∧
      ∀ v a, Call.inject v a ∉ (scanAttestationValues x h data args).calls) ∧
    (∀ (ts : List T) (e : E),
      List.Forall₂ (fun a t => argType x h a = some t) args ts →
      x.Unpack ts data = .error e →
      (scanAttestationValues x h data args).heap = h ∧
      (scanAttestationValues x h data args).result = .err (.ext e) ∧
      ∀ v a, Call.inject v a ∉ (scanAttestationValues x h data args).calls) ∧
    (∀ (ts : List T) (values : List V),
      List.Forall₂ (fun a t => argType x h a = some t) args ts →
      x.Unpack ts data = .ok values →
      args.length ≠ values.length →
      (scanAttestationValues x h data args).heap = h ∧
      (scanAttestationValues x h data args).result =
        .err (.new "unable to unpack all fields".data) ∧
      ∀ v a, Call.inject v a ∉ (scanAttestationValues x h data args).calls) := by
  have hbase : ∀ (ts : List T) (v : V) (a : Arg V),
      Call.inject v a ∉ args.flatMap (argCalls x h) ++ [Call.unpack ts data] := by
    intro ts v a hm
    rcases List.mem_append.1 hm with hm | hm
    · exact argCalls_no_inject x h args v a hm
    · simp at hm
  refine ⟨?_, ?_, ?_⟩
  · intro hfail
    obtain ⟨h1, h2, h3⟩ := scan_of_loop_not_ok x h data args (scan_loop_failed x h args hfail)
    refine ⟨h1, h2, ?_⟩
    intro v a hm
    rw [h3] at hm
    rcases scanLoop_calls x h args [] [] _ hm with hm | ⟨w, hw⟩ | ⟨s, hs⟩
    · simp at hm
    · simp at hw
    · simp at hs
  · intro ts e hts hu
    rw [scan_unfold x h data args ts hts]
    simp only [hu, true_and]
    exact hbase ts
  · intro ts values hts hu hlen
    rw [scan_unfold x h data args ts hts]
    simp only [hu, if_pos hlen, true_and]
    exact hbase ts

/-- C17 at a scan with a nil argument after a valid one, at a scan of a payload cut
inside its string, and at a scan of two values into one destination: each leaves
memory as it was. -/
theorem scan_writes_nothing_on_failed_check_witness :
    (scanAttestationValues Sample.codec (fun _ => .str []) [1, 97] [.ptr 0, .nil]).heap =
      (fun _ => .str []) ∧
    (scanAttestationValues Sample.codec (fun _ => .str []) [6, 72, 101] [.ptr 0]).heap =
      (fun _ => .str []) ∧
    (scanAttestationValues Sample.longUnpack (fun _ => .str []) [1, 97] [.ptr 0]).heap =
      (fun _ => .str []) :=
  ⟨((scan_writes_nothing_on_failed_check Sample.codec (fun _ => .str []) [1, 97]
      [.ptr 0, .nil]).1 ⟨.nil, by decide, by decide⟩).1,
    ((scan_writes_nothing_on_failed_check Sample.codec (fun _ => .str []) [6, 72, 101]
      [.ptr 0]).2.1 [.string] .decoding (List.Forall₂.cons (by decide) List.Forall₂.nil)
      (by decide)).1,
    ((scan_writes_nothing_on_failed_check Sample.longUnpack (fun _ => .str []) [1, 97]
      [.ptr 0]).2.2 [.string] [.str "a".data, .num 0]
      (List.Forall₂.cons (by decide) List.Forall₂.nil) (by decide) (by decide)).1⟩

/-- C18: let every pre-check pass, let the injections for the first `k` destinations
return nil when made in order, and let the injection for destination `k` return an
error.  Then the scan returns that error; the injections made are those for the
destinations `0` to `k`, in order, and none for a later destination; and the
memory left is the one left by the `k` successful injections followed by the failed
one, with nothing rolled back. -/
theorem scan_stops_at_first_failed_injection (x : Externals T V E) (h hk : Heap V)
    (data : Bytes) (apre : List (Arg V)) (a : Arg V) (apost : List (Arg V))
    (vpre : List V) (v : V) (vpost : List V) (ts : List T) (e : E)
    (hts : List.Forall₂ (fun a t => argType x h a = some t) (apre ++ a :: apost) ts)
    (hu : x.Unpack ts data = .ok (vpre ++ v :: vpost))
    (hlen1 : apre.length = vpre.length) (hlen2 : apost.length = vpost.length)
    (hpre : injectsOk x (vpre.zip apre) h = true)
    (hfail : x.Inject v a (heapAfter x (vpre.zip apre) h) = (hk, some e)) :
    (scanAttestationValues x h data (apre ++ a :: apost)).result = .err (.ext e) ∧
    (scanAttestationValues x h data (apre ++ a :: apost)).heap = hk ∧
    (scanAttestationValues x h data (apre ++ a :: apost)).calls =
      (apre ++ a :: apost).flatMap (argCalls x h) ++ [.unpack ts data] ++
        ((vpre.zip apre).map fun p => .inject p.1 p.2) ++ [.inject v a] ∧
    ∀ w b, Call.inject w b ∉ (apre ++ a :: apost).flatMap (argCalls x h) := by
  have hlen : ¬ (apre ++ a :: apost).length ≠ (vpre ++ v :: vpost).length := by
    simp [hlen1, hlen2]
  have hrun := injectLoop_fail_run x apre a apost vpre v vpost [] h hk e
    ((apre ++ a :: apost).flatMap (argCalls x h) ++ [Call.unpack ts data]) hlen1 hpre hfail
  simp only [List.nil_append, List.length_nil] at hrun
  rw [scan_unfold x h data _ ts hts]
  simp only [hu, if_neg hlen, hrun, true_and]
  exact fun w b => argCalls_no_inject x h _ w b

/-- C18 at three arguments, the second of which is not a pointer: the string `"a"` is
stored through the first, the injection into the second fails, the first cell keeps
`"a"` and the third cell is not written. -/
theorem scan_stops_at_first_failed_injection_witness :
    ((scanAttestationValues Sample.codec (fun _ => .str []) [1, 97, 5, 1, 98]
        [.ptr 0, .val (.num 0), .ptr 2]).result = .err (.ext .destination) ∧
      (scanAttestationValues Sample.codec (fun _ => .str []) [1, 97, 5, 1, 98]
        [.ptr 0, .val (.num 0), .ptr 2]).heap =
          heapAfter Sample.codec [(.str "a".data, .ptr 0)] (fun _ => .str []) ∧
      (scanAttestationValues Sample.codec (fun _ => .str []) [1, 97, 5, 1, 98]
        [.ptr 0, .val (.num 0), .ptr 2]).calls =
          [Arg.ptr 0, .val (.num 0), .ptr 2].flatMap
              (argCalls Sample.codec (fun _ => .str [])) ++
            [.unpack [.string, .uint64, .string] [1, 97, 5, 1, 98]] ++
            ([(Sample.Val.str "a".data, Arg.ptr 0)].map fun p => .inject p.1 p.2) ++
            [.inject (.num 5) (.val (.num 0))] ∧
      ∀ w b, Call.inject w b ∉ [Arg.ptr 0, .val (.num 0), .ptr 2].flatMap
        (argCalls Sample.codec (fun _ => .str []))) ∧
    (scanAttestationValues Sample.codec (fun _ => .str []) [1, 97, 5, 1, 98]
      [.ptr 0, .val (.num 0), .ptr 2]).heap 0 = .str "a".data ∧
    (scanAttestationValues Sample.codec (fun _ => .str []) [1, 97, 5, 1, 98]
      [.ptr 0, .val (.num 0), .ptr 2]).heap 2 = .str [] :=
  ⟨scan_stops_at_first_failed_injection Sample.codec (fun _ => .str [])
      (heapAfter Sample.codec [(.str "a".data, .ptr 0)] (fun _ => .str []))
      [1, 97, 5, 1, 98] [.ptr 0] (.val (.num 0)) [.ptr 2] [.str "a".data] (.num 5)
      [.str "b".data] [.string, .uint64, .string] .destination
      (List.Forall₂.cons (by decide) (List.Forall₂.cons (by decide)
        (List.Forall₂.cons (by decide) List.Forall₂.nil)))
      (by decide) (by decide) (by decide) (by decide) rfl,
    by decide, by decide⟩

end EAS
